import Mathlib

/-!
Verification of the architectural-state substrate of the cpulib CPU/SIMD
emulator: the sparse segmented memory model (`src/memory.rs`) and the
register file (`src/registers.rs`).

Machine integers are modelled as `Nat` with explicit masking where the Rust
code's fixed-width behaviour matters.  Fallible operations return `Option`
or a `_ × Bool` pair exactly where the Rust code does; Rust panics are
modelled as `none`.
-/

set_option maxHeartbeats 1000000
set_option maxRecDepth 100000

namespace Cpulib

/-! ## Memory model (`src/memory.rs`) -/

/-- A segment of memory: a start offset (relative to the base address) and a
contiguous byte buffer.  Bytes are `Nat`s (always `< 256` in actual use). -/
structure MemorySegment where
  start_address : Nat
  data : List Nat
deriving DecidableEq

/-- The segmented memory model: a list of segments plus the base address. -/
structure Memory where
  segments : List MemorySegment
  base_address : Nat
deriving DecidableEq

/-- `Memory::new`. -/
def Memory.new (base : Nat) : Memory := ⟨[], base⟩

/-- The allocation granularity `DEFAULT_SIZE` (512 bytes). -/
def DEFAULT_SIZE : Nat := 512

/-- Does a segment contain the given real (base-relative) address? -/
def segContains (s : MemorySegment) (real_address : Nat) : Prop :=
  s.start_address ≤ real_address ∧ real_address < s.start_address + s.data.length

instance (s : MemorySegment) (ra : Nat) : Decidable (segContains s ra) := by
  unfold segContains; infer_instance

/-- `Memory::find_segment`: the first segment whose range contains the real
address (the Rust code returns its index; we return the segment itself). -/
def find_segment : List MemorySegment → Nat → Option MemorySegment
  | [], _ => none
  | s :: rest, ra => if segContains s ra then some s else find_segment rest ra

/-- `Memory::read_byte`: byte at `address`, or `0` when unmapped. -/
def Memory.read_byte (m : Memory) (address : Nat) : Nat :=
  let ra := address - m.base_address
  match find_segment m.segments ra with
  | some s => s.data.getD (ra - s.start_address) 0
  | none => 0

/-- In-place update of the byte at `ra` inside the first segment that
contains it (the found-segment branch of `Memory::write_byte`). -/
def writeInSegments : List MemorySegment → Nat → Nat → List MemorySegment
  | [], _, _ => []
  | s :: rest, ra, v =>
    if segContains s ra then ⟨s.start_address, s.data.set (ra - s.start_address) v⟩ :: rest
    else s :: writeInSegments rest ra v

/-- Ordered insertion by `start_address`; models pushing the new segment and
re-sorting with `sort_by(start_address)` (the list is always sorted). -/
def insertSeg (n : MemorySegment) : List MemorySegment → List MemorySegment
  | [] => [n]
  | t :: rest =>
    if n.start_address ≤ t.start_address then n :: t :: rest else t :: insertSeg n rest

/-- The coalescing loop of `Memory::write_byte`: repeatedly merge a segment
whose end offset equals the next segment's start offset.  The fuel argument
(always called with the list length) makes the recursion structural. -/
def mergeSegsAux : Nat → List MemorySegment → List MemorySegment
  | 0, l => l
  | _ + 1, [] => []
  | _ + 1, [s] => [s]
  | fuel + 1, s :: t :: rest =>
    if s.start_address + s.data.length = t.start_address then
      mergeSegsAux fuel (⟨s.start_address, s.data ++ t.data⟩ :: rest)
    else
      s :: mergeSegsAux fuel (t :: rest)

/-- The segment-coalescing pass run at the end of every `write_byte`. -/
def mergeSegs (l : List MemorySegment) : List MemorySegment :=
  mergeSegsAux l.length l

/-- `Memory::write_byte`: write in place when mapped, otherwise allocate a
zero-filled `DEFAULT_SIZE` block aligned down to the granularity, insert it
in sorted order, then coalesce adjacent segments. -/
def Memory.write_byte (m : Memory) (address value : Nat) : Memory :=
  let ra := address - m.base_address
  if (find_segment m.segments ra).isSome then
    { m with segments := mergeSegs (writeInSegments m.segments ra value) }
  else
    let adjusted_address := ra / DEFAULT_SIZE * DEFAULT_SIZE
    let newSeg : MemorySegment :=
      ⟨adjusted_address, (List.replicate DEFAULT_SIZE 0).set (ra - adjusted_address) value⟩
    { m with segments := mergeSegs (insertSeg newSeg m.segments) }

/-- Fixed-length little-endian byte serialization (`MemoryIO::to_bytes` for
all of u8/u16/u32/u64/u128/u256/u512, with `size` the byte count). -/
def toBytesLE : Nat → Nat → List Nat
  | 0, _ => []
  | size + 1, v => v % 256 :: toBytesLE size (v / 256)

/-- Little-endian byte deserialization (`MemoryIO::from_bytes`). -/
def fromBytesLE : List Nat → Nat
  | [] => 0
  | b :: rest => b + 256 * fromBytesLE rest

/-- Write a list of bytes at consecutive addresses (the loop in
`Memory::write`). -/
def writeBytes (m : Memory) (address : Nat) : List Nat → Memory
  | [] => m
  | b :: rest => writeBytes (m.write_byte address b) (address + 1) rest

/-- `Memory::read::<T>`: read `size` consecutive bytes and decode them
little-endian. -/
def Memory.read (m : Memory) (size address : Nat) : Nat :=
  fromBytesLE ((List.range size).map fun i => m.read_byte (address + i))

/-- `Memory::write::<T>`: encode little-endian, then write byte by byte. -/
def Memory.write (m : Memory) (size address value : Nat) : Memory :=
  writeBytes m address (toBytesLE size value)

/-- Apply a list of `(address, byte)` writes in order. -/
def writeList (m : Memory) : List (Nat × Nat) → Memory
  | [] => m
  | (a, v) :: rest => writeList (m.write_byte a v) rest

/-! ### Memory invariants -/

/-- A segment allocated (or grown by merging) by `write_byte` always starts
at a multiple of the granularity and has a nonzero multiple of the
granularity as its length. -/
def SegAligned (s : MemorySegment) : Prop :=
  s.start_address % DEFAULT_SIZE = 0 ∧ s.data.length % DEFAULT_SIZE = 0 ∧ 0 < s.data.length

/-- Consecutive segments are strictly separated: each segment ends strictly
before the next begins.  This packages sortedness by start offset,
non-overlap and non-adjacency. -/
def SegsOrdered : List MemorySegment → Prop
  | [] => True
  | [_] => True
  | s :: t :: rest =>
    s.start_address + s.data.length < t.start_address ∧ SegsOrdered (t :: rest)

/-- Weak version: each segment ends at or before the next begins (what holds
just before the coalescing pass). -/
def SegsSorted : List MemorySegment → Prop
  | [] => True
  | [_] => True
  | s :: t :: rest =>
    s.start_address + s.data.length ≤ t.start_address ∧ SegsSorted (t :: rest)

/-- The full memory invariant. -/
def MemWF (l : List MemorySegment) : Prop :=
  (∀ s ∈ l, SegAligned s) ∧ SegsOrdered l

/-! ## Selector parsing (`extract_values` in `src/registers.rs`)

`extract_values` runs the regex `\[(.*?):(.*?)\]` (leftmost match, lazy
captures, `.` not matching a newline) and then reads each captured token:
`MAX` means 511, otherwise `parse::<usize>().unwrap_or(0)`. -/

/-- Split a character list at the first occurrence of `stop`, failing if a
newline (which `.` cannot match) or the end of the input comes first. -/
def findSub (stop : Char) : List Char → Option (List Char × List Char)
  | [] => none
  | c :: cs =>
    if c = stop then some ([], cs)
    else if c = '\n' then none
    else (findSub stop cs).map fun pr => (c :: pr.1, pr.2)

/-- Match `(.*?):(.*?)\]` against a prefix of the input with lazy
backtracking: take the first `:` after which a `]` can still be reached; on
failure retry from the next `:`.  Fuel (always the input length) bounds the
backtracking. -/
def matchBodyAux : Nat → List Char → Option (List Char × List Char)
  | 0, _ => none
  | fuel + 1, l =>
    match findSub ':' l with
    | none => none
    | some (c1, rest) =>
      match findSub ']' rest with
      | some (c2, _) => some (c1, c2)
      | none =>
        match matchBodyAux fuel rest with
        | some (c1x, c2x) => some (c1 ++ ':' :: c1x, c2x)
        | none => none

def matchBody (l : List Char) : Option (List Char × List Char) :=
  matchBodyAux l.length l

/-- Scan left to right for the first position where `\[(.*?):(.*?)\]`
matches, returning the two captured token strings. -/
def regexScan : List Char → Option (List Char × List Char)
  | [] => none
  | c :: cs =>
    if c = '[' then
      match matchBody cs with
      | some r => some r
      | none => regexScan cs
    else regexScan cs

/-- Value of a digit string (as accumulated by `str::parse`). -/
def digitsVal (t : List Char) : Nat :=
  t.foldl (fun acc c => acc * 10 + (c.toNat - 48)) 0

/-- `str::parse::<usize>()`: an optional leading `+`, then a nonempty string
of ASCII digits whose value fits in 64 bits (usize); anything else errs. -/
def parseUsize (t : List Char) : Option Nat :=
  let digits := if t.head? = some '+' then t.tail else t
  if digits ≠ [] ∧ digits.all Char.isDigit ∧ digitsVal digits < 2 ^ 64 then
    some (digitsVal digits)
  else none

/-- Token decoding in `extract_values`: the literal `MAX` is 511, otherwise
`parse::<usize>().unwrap_or(0)` (a malformed number silently becomes 0). -/
def tokenValue (t : List Char) : Nat :=
  if t = ['M', 'A', 'X'] then 511 else (parseUsize t).getD 0

/-- `extract_values`: the two numbers captured from the selector string, or
`none` when the regex does not match. -/
def extract_values (s : String) : Option (Nat × Nat) :=
  (regexScan s.data).map fun pr => (tokenValue pr.1, tokenValue pr.2)

/-! ## SIMD registers (`SIMDRegister` in `src/registers.rs`)

A register is a 512-entry bit vector.  The generic section type `T`
(`SectionCompatible`) is modelled by its bit width `type_bits`
(`size_of::<T>() * 8`) with section values carried as `Nat`s. -/

structure SIMDRegister where
  bits : List Bool
deriving DecidableEq

/-- `SIMDRegister::new`. -/
def SIMDRegister.new (size : Nat) : SIMDRegister :=
  ⟨List.replicate size false⟩

/-- `SIMDRegister::set_bit` (out-of-range positions never occur in use). -/
def SIMDRegister.set_bit (r : SIMDRegister) (position : Nat) (value : Bool) : SIMDRegister :=
  ⟨r.bits.set position value⟩

/-- `SIMDRegister::get_bit`. -/
def SIMDRegister.get_bit (r : SIMDRegister) (position : Nat) : Bool :=
  r.bits.getD position false

/-- `SIMDRegister::clear`. -/
def SIMDRegister.clear (r : SIMDRegister) : SIMDRegister :=
  ⟨List.replicate r.bits.length false⟩

/-- The accumulation loop `value = value | (1 << k)` over all `k < n` with
bit `p k` set, starting from zero. -/
def orBits (p : Nat → Bool) (n : Nat) : Nat :=
  (List.range n).foldl (fun v k => if p k then v ||| (1 <<< k) else v) 0

/-- `SIMDRegister::get_sections`: decompose the whole bit vector into lanes
of `type_bits` bits, least-significant lane first (the loop breaks past the
end of the bit vector, so missing bits read as zero). -/
def SIMDRegister.get_sections (type_bits : Nat) (r : SIMDRegister) : List Nat :=
  (List.range ((r.bits.length + type_bits - 1) / type_bits)).map fun k =>
    orBits (fun j => r.bits.getD (k * type_bits + j) false) type_bits

/-- One section of `SIMDRegister::set_by_sections`: for each `j < type_bits`
with bit `j` of the section set, set bit `i + j` of the register to `true`.
Bits whose section bit is zero are NOT written (there is no else branch in
the Rust loop). -/
def writeSection (bits : List Bool) (i type_bits s : Nat) : List Bool :=
  (List.range type_bits).foldl
    (fun b j => if s.testBit j then b.set (i + j) true else b) bits

/-- The outer loop of `SIMDRegister::set_by_sections`. -/
def writeSections (bits : List Bool) (i type_bits : Nat) : List Nat → List Bool
  | [] => bits
  | s :: rest => writeSections (writeSection bits i type_bits s) (i + type_bits) type_bits rest

/-- `SIMDRegister::set_by_sections`: fails unless
`type_bits * sections.len() == bits.len()`; on success runs the (set-only)
write loop. -/
def SIMDRegister.set_by_sections (type_bits : Nat) (r : SIMDRegister) (sections : List Nat) :
    SIMDRegister × Bool :=
  if type_bits * sections.length ≠ r.bits.length then (r, false)
  else (⟨writeSections r.bits 0 type_bits sections⟩, true)

/-- `SIMDRegister::get_by_index`: pack bits `start_index..=end_index` into a
value starting at bit 0.  `none` models the panic when the requested range
is wider than `T` (including the usize underflow when
`end_index < start_index`). -/
def SIMDRegister.get_by_index (type_bits : Nat) (r : SIMDRegister)
    (start_index end_index : Nat) : Option Nat :=
  if end_index < start_index then none
  else if type_bits < end_index - start_index + 1 then none
  else some (orBits (fun k => r.bits.getD (start_index + k) false) (end_index - start_index + 1))

/-- One iteration of the `set_by_index` loop at offset `k` from the start:
break past the end of the register, clear the bit when the offset is past
`type_bits`, otherwise copy bit `k` of the value. -/
def setStep (type_bits start_index value : Nat) (b : List Bool) (k : Nat) : List Bool :=
  if b.length ≤ start_index + k then b
  else if type_bits ≤ k then b.set (start_index + k) false
  else if value.testBit k then b.set (start_index + k) true
  else b.set (start_index + k) false

/-- `SIMDRegister::set_by_index`: overwrite bits `start_index..=end_index`
(stopping at the end of the register); destination bits past `type_bits`
are explicitly cleared. -/
def SIMDRegister.set_by_index (type_bits : Nat) (r : SIMDRegister)
    (start_index end_index : Nat) (value : Nat) : SIMDRegister :=
  ⟨(List.range (end_index + 1 - start_index)).foldl
    (setStep type_bits start_index value) r.bits⟩

/-! ## Register file (`Registers` in `src/registers.rs`) -/

inductive VecRegName
  | XMM | YMM | ZMM
deriving DecidableEq

inductive GPRName
  | RAX | RBX | RCX | RDX | RSI | RDI | RBP | RSP
  | R8 | R9 | R10 | R11 | R12 | R13 | R14 | R15
  | EAX | EBX | ECX | EDX | ESI | EDI | EBP | ESP
  | R8D | R9D | R10D | R11D | R12D | R13D | R14D | R15D
  | AX | BX | CX | DX | SI | DI | BP | SP
  | R8W | R9W | R10W | R11W | R12W | R13W | R14W | R15W
  | AH | BH | CH | DH | AL | BL | CL | DL | SIL | DIL | BPL | SPL
  | R8B | R9B | R10B | R11B | R12B | R13B | R14B | R15B
deriving DecidableEq

inductive FLAGSName
  | RFLAGS | EFLAGS | FLAGS
deriving DecidableEq

inductive IPName
  | RIP | EIP | IP
deriving DecidableEq

structure Registers where
  simd_registers : List SIMDRegister
  gpr : List Nat
  rflags : Nat
  rip : Nat
deriving DecidableEq

/-- `Registers::new`: sixteen 512-bit SIMD registers, sixteen zeroed GPRs,
zeroed RFLAGS and RIP. -/
def Registers.new : Registers :=
  ⟨List.replicate 16 (SIMDRegister.new 512), List.replicate 16 0, 0, 0⟩

/-- The SIMD register at a slot (slots are always `< 16` in use). -/
def Registers.simdAt (regs : Registers) (reg_index : Nat) : SIMDRegister :=
  regs.simd_registers.getD reg_index ⟨[]⟩

def Registers.simdSet (regs : Registers) (reg_index : Nat) (r : SIMDRegister) : Registers :=
  { regs with simd_registers := regs.simd_registers.set reg_index r }

/-- `Registers::set_bit`: bounds-check the position against the chosen view
width; out of range leaves the state unchanged (the Rust code only prints a
message). -/
def Registers.set_bit (regs : Registers) (reg_type : VecRegName)
    (reg_index bit_position : Nat) (value : Bool) : Registers :=
  match reg_type with
  | .XMM =>
    if bit_position < 128 then regs.simdSet reg_index ((regs.simdAt reg_index).set_bit bit_position value)
    else regs
  | .YMM =>
    if bit_position < 256 then regs.simdSet reg_index ((regs.simdAt reg_index).set_bit bit_position value)
    else regs
  | .ZMM =>
    if bit_position < 512 then regs.simdSet reg_index ((regs.simdAt reg_index).set_bit bit_position value)
    else regs

/-- `Registers::get_bit`. -/
def Registers.get_bit (regs : Registers) (reg_type : VecRegName)
    (reg_index bit_position : Nat) : Option Bool :=
  match reg_type with
  | .XMM => if bit_position < 128 then some ((regs.simdAt reg_index).get_bit bit_position) else none
  | .YMM => if bit_position < 256 then some ((regs.simdAt reg_index).get_bit bit_position) else none
  | .ZMM => if bit_position < 512 then some ((regs.simdAt reg_index).get_bit bit_position) else none

/-- `Registers::clear`. -/
def Registers.clear (regs : Registers) (reg_index : Nat) : Registers :=
  regs.simdSet reg_index ((regs.simdAt reg_index).clear)

/-- `Registers::get_by_sections`: take the low `width / type_bits` lanes of
the full 512-bit decomposition. -/
def Registers.get_by_sections (type_bits : Nat) (regs : Registers)
    (reg_type : VecRegName) (reg_index : Nat) : Option (List Nat) :=
  let sections := (regs.simdAt reg_index).get_sections type_bits
  match reg_type with
  | .XMM => some (sections.take (128 / type_bits))
  | .YMM => some (sections.take (256 / type_bits))
  | .ZMM => some (sections.take (512 / type_bits))

/-- `Registers::set_by_sections`: require `type_bits * lane_count` to equal
the view width exactly, pad the sections with zeros up to 512 bits, and run
the underlying (set-only) write; its boolean result is discarded. -/
def Registers.set_by_sections (type_bits : Nat) (regs : Registers)
    (reg_type : VecRegName) (reg_index : Nat) (sections : List Nat) : Registers × Bool :=
  let register_bits := type_bits * sections.length
  let fill_sections := (512 - register_bits) / type_bits
  match reg_type with
  | .XMM =>
    if register_bits ≠ 128 then (regs, false)
    else
      let fill := sections ++ List.replicate fill_sections 0
      (regs.simdSet reg_index ((regs.simdAt reg_index).set_by_sections type_bits fill).1, true)
  | .YMM =>
    if register_bits ≠ 256 then (regs, false)
    else
      let fill := sections ++ List.replicate fill_sections 0
      (regs.simdSet reg_index ((regs.simdAt reg_index).set_by_sections type_bits fill).1, true)
  | .ZMM =>
    if register_bits ≠ 512 then (regs, false)
    else
      let fill := sections ++ List.replicate fill_sections 0
      (regs.simdSet reg_index ((regs.simdAt reg_index).set_by_sections type_bits fill).1, true)

/-- `Registers::get_by_selector`: parse the selector, then read bits
`lo..=hi` (the register view name is ignored by the Rust code). -/
def Registers.get_by_selector (type_bits : Nat) (regs : Registers)
    (_reg_type : VecRegName) (reg_index : Nat) (selector : String) : Option Nat :=
  match extract_values selector with
  | some (a, b) => (regs.simdAt reg_index).get_by_index type_bits b a
  | none => none

/-- `Registers::set_by_selector`. -/
def Registers.set_by_selector (type_bits : Nat) (regs : Registers)
    (_reg_type : VecRegName) (reg_index : Nat) (selector : String) (value : Nat) :
    Registers × Bool :=
  match extract_values selector with
  | some (a, b) =>
    (regs.simdSet reg_index ((regs.simdAt reg_index).set_by_index type_bits b a value), true)
  | none => (regs, false)

/-! ### General-purpose registers

The `register_set!`/`register_get!` macros expand to one match arm per
register name; each arm is determined by the name's family (the backing
64-bit register's index) and its view kind, which the two tables below
record. -/

inductive AliasKind
  | full | low32 | low16 | low8 | high8
deriving DecidableEq

/-- Index of the backing 64-bit register (`GPRName::$r64 as usize`). -/
def gprFamily : GPRName → Nat
  | .RAX => 0 | .RBX => 1 | .RCX => 2 | .RDX => 3
  | .RSI => 4 | .RDI => 5 | .RBP => 6 | .RSP => 7
  | .R8 => 8 | .R9 => 9 | .R10 => 10 | .R11 => 11
  | .R12 => 12 | .R13 => 13 | .R14 => 14 | .R15 => 15
  | .EAX => 0 | .EBX => 1 | .ECX => 2 | .EDX => 3
  | .ESI => 4 | .EDI => 5 | .EBP => 6 | .ESP => 7
  | .R8D => 8 | .R9D => 9 | .R10D => 10 | .R11D => 11
  | .R12D => 12 | .R13D => 13 | .R14D => 14 | .R15D => 15
  | .AX => 0 | .BX => 1 | .CX => 2 | .DX => 3
  | .SI => 4 | .DI => 5 | .BP => 6 | .SP => 7
  | .R8W => 8 | .R9W => 9 | .R10W => 10 | .R11W => 11
  | .R12W => 12 | .R13W => 13 | .R14W => 14 | .R15W => 15
  | .AH => 0 | .BH => 1 | .CH => 2 | .DH => 3
  | .AL => 0 | .BL => 1 | .CL => 2 | .DL => 3
  | .SIL => 4 | .DIL => 5 | .BPL => 6 | .SPL => 7
  | .R8B => 8 | .R9B => 9 | .R10B => 10 | .R11B => 11
  | .R12B => 12 | .R13B => 13 | .R14B => 14 | .R15B => 15

/-- Which view of the family a name denotes.  Only the A/B/C/D families have
high-byte aliases. -/
def aliasKind : GPRName → AliasKind
  | .RAX | .RBX | .RCX | .RDX | .RSI | .RDI | .RBP | .RSP
  | .R8 | .R9 | .R10 | .R11 | .R12 | .R13 | .R14 | .R15 => .full
  | .EAX | .EBX | .ECX | .EDX | .ESI | .EDI | .EBP | .ESP
  | .R8D | .R9D | .R10D | .R11D | .R12D | .R13D | .R14D | .R15D => .low32
  | .AX | .BX | .CX | .DX | .SI | .DI | .BP | .SP
  | .R8W | .R9W | .R10W | .R11W | .R12W | .R13W | .R14W | .R15W => .low16
  | .AH | .BH | .CH | .DH => .high8
  | .AL | .BL | .CL | .DL | .SIL | .DIL | .BPL | .SPL
  | .R8B | .R9B | .R10B | .R11B | .R12B | .R13B | .R14B | .R15B => .low8

def Registers.gprGet (regs : Registers) (i : Nat) : Nat := regs.gpr.getD i 0

def Registers.gprSet (regs : Registers) (i v : Nat) : Registers :=
  { regs with gpr := regs.gpr.set i v }

/-- `Registers::set_gpr_value` (expansion of `register_set!`).  The shift in
the high-byte arm is a u64 shift, but its truncation is absorbed by the
`0xFF00` mask. -/
def Registers.set_gpr_value (regs : Registers) (reg_name : GPRName) (value : Nat) : Registers :=
  match aliasKind reg_name with
  | .full => regs.gprSet (gprFamily reg_name) value
  | .low32 => regs.gprSet (gprFamily reg_name) (value &&& 0xFFFFFFFF)
  | .low16 =>
    regs.gprSet (gprFamily reg_name)
      ((regs.gprGet (gprFamily reg_name) &&& 0xFFFFFFFFFFFF0000) ||| (value &&& 0xFFFF))
  | .low8 =>
    regs.gprSet (gprFamily reg_name)
      ((regs.gprGet (gprFamily reg_name) &&& 0xFFFFFFFFFFFFFF00) ||| (value &&& 0xFF))
  | .high8 =>
    regs.gprSet (gprFamily reg_name)
      ((regs.gprGet (gprFamily reg_name) &&& 0xFFFFFFFFFFFF00FF) ||| ((value <<< 8) &&& 0xFF00))

/-- `Registers::get_gpr_value` (expansion of `register_get!`). -/
def Registers.get_gpr_value (regs : Registers) (reg_name : GPRName) : Nat :=
  match aliasKind reg_name with
  | .full => regs.gprGet (gprFamily reg_name)
  | .low32 => regs.gprGet (gprFamily reg_name) &&& 0xFFFFFFFF
  | .low16 => regs.gprGet (gprFamily reg_name) &&& 0xFFFF
  | .low8 => regs.gprGet (gprFamily reg_name) &&& 0xFF
  | .high8 => (regs.gprGet (gprFamily reg_name) &&& 0xFF00) >>> 8

/-- `Registers::set_flags_value`. -/
def Registers.set_flags_value (regs : Registers) (reg_name : FLAGSName) (value : Nat) : Registers :=
  match reg_name with
  | .RFLAGS => { regs with rflags := value }
  | .EFLAGS => { regs with rflags := (regs.rflags &&& 0xFFFFFFFF00000000) ||| (value &&& 0xFFFFFFFF) }
  | .FLAGS => { regs with rflags := (regs.rflags &&& 0xFFFFFFFFFFFF0000) ||| (value &&& 0xFFFF) }

/-- `Registers::get_flags_value`. -/
def Registers.get_flags_value (regs : Registers) (reg_name : FLAGSName) : Nat :=
  match reg_name with
  | .RFLAGS => regs.rflags
  | .EFLAGS => regs.rflags &&& 0xFFFFFFFF
  | .FLAGS => regs.rflags &&& 0xFFFF

/-- `Registers::set_ip_value`.  Note: the EIP/IP arms REPLACE the whole
64-bit value with the masked input (no merge with the old high bits). -/
def Registers.set_ip_value (regs : Registers) (reg_name : IPName) (value : Nat) : Registers :=
  match reg_name with
  | .RIP => { regs with rip := value }
  | .EIP => { regs with rip := value &&& 0xFFFFFFFF }
  | .IP => { regs with rip := value &&& 0xFFFF }

/-- `Registers::get_ip_value`. -/
def Registers.get_ip_value (regs : Registers) (reg_name : IPName) : Nat :=
  match reg_name with
  | .RIP => regs.rip
  | .EIP => regs.rip &&& 0xFFFFFFFF
  | .IP => regs.rip &&& 0xFFFF

/-- Well-formedness of a register file: the shapes fixed by
`Registers::new` and the 64-bit bounds guaranteed by the `u64` fields. -/
def Registers.WF (regs : Registers) : Prop :=
  regs.simd_registers.length = 16 ∧
  (∀ r ∈ regs.simd_registers, r.bits.length = 512) ∧
  regs.gpr.length = 16 ∧
  (∀ v ∈ regs.gpr, v < 2 ^ 64) ∧
  regs.rflags < 2 ^ 64 ∧
  regs.rip < 2 ^ 64

/-! ### Verification helper definitions -/

/-- Abstract byte lookup over a segment list (what `read_byte` computes on
the base-relative address). -/
def segByte (l : List MemorySegment) (ra : Nat) : Nat :=
  match find_segment l ra with
  | some s => s.data.getD (ra - s.start_address) 0
  | none => 0

/-- The shape of a segment list: start offsets and lengths. -/
def segShape (l : List MemorySegment) : List (Nat × Nat) :=
  l.map fun s => (s.start_address, s.data.length)

/-- Two segments occupy disjoint offset ranges. -/
def segDisjoint (n s : MemorySegment) : Prop :=
  n.start_address + n.data.length ≤ s.start_address ∨
  s.start_address + s.data.length ≤ n.start_address

/-- The fresh zero-filled block allocated by `write_byte` for an unmapped
real address: aligned down to the granularity, with the written byte at its
offset. -/
def freshSeg (ra v : Nat) : MemorySegment :=
  ⟨ra / DEFAULT_SIZE * DEFAULT_SIZE,
   (List.replicate DEFAULT_SIZE 0).set (ra - ra / DEFAULT_SIZE * DEFAULT_SIZE) v⟩

/-- The view width in bits selected by a vector register name. -/
def vecWidth : VecRegName → Nat
  | .XMM => 128
  | .YMM => 256
  | .ZMM => 512

/-- A token string denotes a value: it is the literal `MAX` (denoting 511)
or a nonempty decimal digit string with that value (fitting in usize). -/
def tokenDenotes (t : List Char) (v : Nat) : Prop :=
  (t = ['M', 'A', 'X'] ∧ v = 511) ∨
  (t ≠ [] ∧ t.all Char.isDigit ∧ digitsVal t < 2 ^ 64 ∧ digitsVal t = v)

/-! ## Generic helper lemmas -/

theorem getD_set_self {α : Type} (l : List α) (n : Nat) (a d : α) (h : n < l.length) :
    (l.set n a).getD n d = a := by
  simp [List.getD, List.getElem?_set_self', h]

theorem getD_set_ne {α : Type} (l : List α) (m n : Nat) (a d : α) (h : m ≠ n) :
    (l.set m a).getD n d = l.getD n d := by
  simp [List.getD, List.getElem?_set_ne h]

theorem getD_replicate_lt {α : Type} (c d : α) (n i : Nat) (h : i < n) :
    (List.replicate n c).getD i d = c := by
  simp [List.getD, List.getElem?_replicate, h]

theorem getD_map_range {α : Type} (n k : Nat) (f : Nat → α) (d : α) (h : k < n) :
    ((List.range n).map f).getD k d = f k := by
  simp [List.getD, List.getElem?_map, List.getElem?_range h]

theorem map_range_getD (l : List Nat) :
    (List.range l.length).map (fun i => l.getD i 0) = l := by
  apply List.ext_getElem
  · simp
  · intro i h1 h2
    simp only [List.getElem_map, List.getElem_range]
    simp [List.getD, List.getElem?_eq_getElem, h2]

theorem orBits_testBit (p : Nat → Bool) (n j : Nat) :
    (orBits p n).testBit j = (decide (j < n) && p j) := by
  induction n with
  | zero => simp [orBits]
  | succ n ih =>
    unfold orBits at ih ⊢
    rw [List.range_succ, List.foldl_append]
    simp only [List.foldl_cons, List.foldl_nil]
    have h1 : (1 <<< n : Nat).testBit j = decide (n = j) := by
      rw [Nat.shiftLeft_eq, one_mul, Nat.testBit_two_pow]
    by_cases hp : p n
    · rw [if_pos hp, Nat.testBit_or, ih, h1]
      by_cases h : j < n
      · rw [decide_eq_true h, decide_eq_true (show j < n + 1 by omega),
          decide_eq_false (show ¬n = j by omega)]
        simp
      · by_cases h2 : j = n
        · subst h2; simp [hp, Nat.lt_succ_self]
        · rw [decide_eq_false h, decide_eq_false (show ¬j < n + 1 by omega),
            decide_eq_false (show ¬n = j by omega)]
          simp
    · rw [if_neg hp, ih]
      by_cases h : j < n
      · rw [decide_eq_true h, decide_eq_true (show j < n + 1 by omega)]
      · by_cases h2 : j = n
        · subst h2; simp [hp, Nat.lt_succ_self]
        · rw [decide_eq_false h, decide_eq_false (show ¬j < n + 1 by omega)]

theorem fromBytesLE_toBytesLE (n v : Nat) : fromBytesLE (toBytesLE n v) = v % 256 ^ n := by
  induction n generalizing v with
  | zero => simp [toBytesLE, fromBytesLE, Nat.mod_one]
  | succ n ih =>
    simp only [toBytesLE, fromBytesLE, ih]
    rw [pow_succ', Nat.mod_mul]

theorem toBytesLE_length (n v : Nat) : (toBytesLE n v).length = n := by
  induction n generalizing v with
  | zero => rfl
  | succ n ih => simp [toBytesLE, ih]

theorem fromBytesLE_zero (l : List Nat) (h : ∀ b ∈ l, b = 0) : fromBytesLE l = 0 := by
  induction l with
  | nil => rfl
  | cons b rest ih =>
    simp only [fromBytesLE]
    rw [h b (by simp), ih fun x hx => h x (by simp [hx])]

/-! ## Memory lemmas -/

theorem find_segment_none_iff (l : List MemorySegment) (ra : Nat) :
    find_segment l ra = none ↔ ∀ s ∈ l, ¬segContains s ra := by
  induction l with
  | nil => simp [find_segment]
  | cons s rest ih =>
    by_cases h : segContains s ra <;> simp [find_segment, h, ih]

theorem segByte_cons (s : MemorySegment) (l : List MemorySegment) (ra : Nat) :
    segByte (s :: l) ra =
      if segContains s ra then s.data.getD (ra - s.start_address) 0 else segByte l ra := by
  by_cases h : segContains s ra <;> simp [segByte, find_segment, h]

theorem segByte_not_contained (l : List MemorySegment) (ra : Nat)
    (h : ∀ s ∈ l, ¬segContains s ra) : segByte l ra = 0 := by
  simp [segByte, (find_segment_none_iff l ra).mpr h]

theorem read_byte_eq_segByte (m : Memory) (x : Nat) :
    m.read_byte x = segByte m.segments (x - m.base_address) := rfl

theorem segsOrdered_congr (l : List MemorySegment) :
    ∀ l', segShape l = segShape l' → SegsOrdered l → SegsOrdered l' := by
  induction l with
  | nil =>
    intro l' h _
    cases l' with
    | nil => trivial
    | cons s' rest' => simp [segShape] at h
  | cons s rest ih =>
    intro l' h ho
    cases l' with
    | nil => simp [segShape] at h
    | cons s' rest' =>
      simp only [segShape, List.map_cons, List.cons.injEq, Prod.mk.injEq] at h
      obtain ⟨⟨hs1, hs2⟩, htail⟩ := h
      cases rest with
      | nil =>
        cases rest' with
        | nil => trivial
        | cons t' rest'' => simp at htail
      | cons t rrest =>
        cases rest' with
        | nil => simp at htail
        | cons t' rrest' =>
          obtain ⟨h1, h2⟩ := ho
          have htail' : segShape (t :: rrest) = segShape (t' :: rrest') := by
            simpa [segShape] using htail
          refine ⟨?_, ih (t' :: rrest') htail' h2⟩
          have ht : t.start_address = t'.start_address := by
            simp only [segShape, List.map_cons, List.cons.injEq, Prod.mk.injEq] at htail'
            exact htail'.1.1
          omega

theorem segAligned_all_congr (l : List MemorySegment) :
    ∀ l', segShape l = segShape l' → (∀ s ∈ l, SegAligned s) → ∀ s' ∈ l', SegAligned s' := by
  induction l with
  | nil =>
    intro l' h _
    cases l' with
    | nil => simp
    | cons s' rest' => simp [segShape] at h
  | cons s rest ih =>
    intro l' h ha
    cases l' with
    | nil => simp [segShape] at h
    | cons s' rest' =>
      simp only [segShape, List.map_cons, List.cons.injEq, Prod.mk.injEq] at h
      obtain ⟨⟨hs1, hs2⟩, htail⟩ := h
      intro x hx
      rcases List.mem_cons.mp hx with hx | hx
      · subst hx
        have := ha s (by simp)
        simp only [SegAligned, DEFAULT_SIZE] at this ⊢
        omega
      · exact ih rest' htail (fun y hy => ha y (by simp [hy])) x hx

theorem writeIn_shape (l : List MemorySegment) (ra v : Nat) :
    segShape (writeInSegments l ra v) = segShape l := by
  induction l with
  | nil => rfl
  | cons s rest ih =>
    by_cases h : segContains s ra
    · simp [writeInSegments, h, segShape, List.length_set]
    · simp only [writeInSegments, if_neg h, segShape, List.map_cons, List.cons.injEq]
      exact ⟨by simp, by simpa [segShape] using ih⟩

theorem writeIn_segByte_eq (l : List MemorySegment) (ra v : Nat)
    (h : (find_segment l ra).isSome) :
    segByte (writeInSegments l ra v) ra = v := by
  induction l with
  | nil => simp [find_segment] at h
  | cons s rest ih =>
    by_cases hc : segContains s ra
    · have hlt : ra - s.start_address < s.data.length := by
        unfold segContains at hc; omega
      have hc' : segContains ⟨s.start_address, s.data.set (ra - s.start_address) v⟩ ra := by
        unfold segContains at hc ⊢
        simp only [List.length_set]
        omega
      simp only [writeInSegments, if_pos hc]
      rw [segByte_cons, if_pos hc']
      exact getD_set_self _ _ _ _ hlt
    · simp only [writeInSegments, if_neg hc]
      rw [segByte_cons, if_neg hc]
      apply ih
      simpa [find_segment, hc] using h

theorem writeIn_segByte_ne (l : List MemorySegment) (ra v ra' : Nat) (hne : ra' ≠ ra) :
    segByte (writeInSegments l ra v) ra' = segByte l ra' := by
  induction l with
  | nil => rfl
  | cons s rest ih =>
    by_cases hc : segContains s ra
    · have hshape : segContains ⟨s.start_address, s.data.set (ra - s.start_address) v⟩ ra' ↔
          segContains s ra' := by
        unfold segContains
        simp [List.length_set]
      simp only [writeInSegments, if_pos hc]
      rw [segByte_cons, segByte_cons]
      by_cases hc' : segContains s ra'
      · rw [if_pos (hshape.mpr hc'), if_pos hc']
        show (s.data.set (ra - s.start_address) v).getD (ra' - s.start_address) 0 =
          s.data.getD (ra' - s.start_address) 0
        apply getD_set_ne
        unfold segContains at hc hc'
        omega
      · rw [if_neg (fun h => hc' (hshape.mp h)), if_neg hc']
    · simp only [writeInSegments, if_neg hc]
      rw [segByte_cons, segByte_cons, ih]

theorem mergeSegsAux_head_start (fuel : Nat) :
    ∀ (s : MemorySegment) (rest : List MemorySegment), (s :: rest).length ≤ fuel →
      ∃ d tl, mergeSegsAux fuel (s :: rest) = MemorySegment.mk s.start_address d :: tl := by
  induction fuel with
  | zero => intro s rest h; simp at h
  | succ fuel ih =>
    intro s rest h
    cases rest with
    | nil => exact ⟨s.data, [], rfl⟩
    | cons t rrest =>
      by_cases hadj : s.start_address + s.data.length = t.start_address
      · simp only [mergeSegsAux, if_pos hadj]
        have hlen : (MemorySegment.mk s.start_address (s.data ++ t.data) :: rrest).length ≤ fuel := by
          simp at h ⊢; omega
        exact ih _ rrest hlen
      · simp only [mergeSegsAux, if_neg hadj]
        exact ⟨s.data, _, rfl⟩

theorem mergeSegsAux_sorted (fuel : Nat) :
    ∀ l, l.length ≤ fuel → SegsSorted l → SegsOrdered (mergeSegsAux fuel l) := by
  induction fuel with
  | zero =>
    intro l h _
    have : l = [] := List.eq_nil_of_length_eq_zero (by omega)
    subst this; trivial
  | succ fuel ih =>
    intro l hlen hs
    match l with
    | [] => trivial
    | [s] => trivial
    | s :: t :: rest =>
      obtain ⟨h1, h2⟩ := hs
      by_cases hadj : s.start_address + s.data.length = t.start_address
      · simp only [mergeSegsAux, if_pos hadj]
        apply ih
        · simp at hlen ⊢; omega
        · cases rest with
          | nil => trivial
          | cons r rrest =>
            obtain ⟨h3, h4⟩ := h2
            refine ⟨?_, h4⟩
            simp only [List.length_append]
            omega
      · simp only [mergeSegsAux, if_neg hadj]
        have hlen' : (t :: rest).length ≤ fuel := by simp at hlen ⊢; omega
        obtain ⟨d, tl, heq⟩ := mergeSegsAux_head_start fuel t rest hlen'
        rw [heq]
        have hord := ih (t :: rest) hlen' h2
        rw [heq] at hord
        exact ⟨by simp; omega, hord⟩

theorem mergeSegsAux_aligned (fuel : Nat) :
    ∀ l, l.length ≤ fuel → (∀ s ∈ l, SegAligned s) → ∀ s ∈ mergeSegsAux fuel l, SegAligned s := by
  induction fuel with
  | zero =>
    intro l h ha
    have : l = [] := List.eq_nil_of_length_eq_zero (by omega)
    subst this; simp [mergeSegsAux]
  | succ fuel ih =>
    intro l hlen ha
    match l with
    | [] => simp [mergeSegsAux]
    | [s] => simpa [mergeSegsAux] using ha
    | s :: t :: rest =>
      by_cases hadj : s.start_address + s.data.length = t.start_address
      · simp only [mergeSegsAux, if_pos hadj]
        apply ih
        · simp at hlen ⊢; omega
        · intro x hx
          rcases List.mem_cons.mp hx with hx | hx
          · subst hx
            have has := ha s (by simp)
            have hat := ha t (by simp)
            simp only [SegAligned, DEFAULT_SIZE, List.length_append] at has hat ⊢
            omega
          · exact ha x (by simp [hx])
      · simp only [mergeSegsAux, if_neg hadj]
        intro x hx
        rcases List.mem_cons.mp hx with hx | hx
        · subst hx; exact ha _ (by simp)
        · exact ih (t :: rest) (by simp at hlen ⊢; omega)
            (fun y hy => ha y (List.mem_cons_of_mem _ hy)) x hx

theorem segByte_merged (s t : MemorySegment) (rest : List MemorySegment)
    (hadj : s.start_address + s.data.length = t.start_address) (ra : Nat) :
    segByte (MemorySegment.mk s.start_address (s.data ++ t.data) :: rest) ra =
      segByte (s :: t :: rest) ra := by
  rw [segByte_cons, segByte_cons, segByte_cons]
  by_cases hs : segContains s ra
  · have hm : segContains ⟨s.start_address, s.data ++ t.data⟩ ra := by
      unfold segContains at hs ⊢
      simp only [List.length_append]
      omega
    rw [if_pos hm, if_pos hs]
    show (s.data ++ t.data).getD (ra - s.start_address) 0 = s.data.getD (ra - s.start_address) 0
    have hlt : ra - s.start_address < s.data.length := by unfold segContains at hs; omega
    simp [List.getD, List.getElem?_append_left hlt]
  · by_cases ht : segContains t ra
    · have hm : segContains ⟨s.start_address, s.data ++ t.data⟩ ra := by
        unfold segContains at ht ⊢
        simp only [List.length_append]
        omega
      rw [if_pos hm, if_neg hs, if_pos ht]
      show (s.data ++ t.data).getD (ra - s.start_address) 0 = t.data.getD (ra - t.start_address) 0
      have hge : s.data.length ≤ ra - s.start_address := by
        unfold segContains at hs ht
        omega
      have hidx : ra - s.start_address - s.data.length = ra - t.start_address := by
        unfold segContains at ht
        omega
      simp [List.getD, List.getElem?_append_right hge, hidx]
    · have hm : ¬segContains ⟨s.start_address, s.data ++ t.data⟩ ra := by
        unfold segContains at hs ht ⊢
        simp only [List.length_append]
        omega
      rw [if_neg hm, if_neg hs, if_neg ht]

theorem mergeSegsAux_segByte (fuel : Nat) :
    ∀ l, l.length ≤ fuel → SegsSorted l → ∀ ra, segByte (mergeSegsAux fuel l) ra = segByte l ra := by
  induction fuel with
  | zero =>
    intro l h _ ra
    have : l = [] := List.eq_nil_of_length_eq_zero (by omega)
    subst this; rfl
  | succ fuel ih =>
    intro l hlen hs ra
    match l with
    | [] => rfl
    | [s] => rfl
    | s :: t :: rest =>
      obtain ⟨h1, h2⟩ := hs
      by_cases hadj : s.start_address + s.data.length = t.start_address
      · simp only [mergeSegsAux, if_pos hadj]
        rw [ih _ (by simp at hlen ⊢; omega) ?_ ra, segByte_merged s t rest hadj ra]
        cases rest with
        | nil => trivial
        | cons r rrest =>
          obtain ⟨h3, h4⟩ := h2
          refine ⟨?_, h4⟩
          simp only [List.length_append]
          omega
      · simp only [mergeSegsAux, if_neg hadj]
        rw [segByte_cons, segByte_cons]
        by_cases hc : segContains s ra
        · rw [if_pos hc, if_pos hc]
        · rw [if_neg hc, if_neg hc]
          exact ih (t :: rest) (by simp at hlen ⊢; omega) h2 ra

theorem mergeSegs_sorted (l : List MemorySegment) (h : SegsSorted l) :
    SegsOrdered (mergeSegs l) :=
  mergeSegsAux_sorted l.length l le_rfl h

theorem mergeSegs_aligned (l : List MemorySegment) (h : ∀ s ∈ l, SegAligned s) :
    ∀ s ∈ mergeSegs l, SegAligned s :=
  mergeSegsAux_aligned l.length l le_rfl h

theorem mergeSegs_segByte (l : List MemorySegment) (h : SegsSorted l) (ra : Nat) :
    segByte (mergeSegs l) ra = segByte l ra :=
  mergeSegsAux_segByte l.length l le_rfl h ra

theorem segsOrdered_sorted (l : List MemorySegment) (h : SegsOrdered l) : SegsSorted l := by
  induction l with
  | nil => trivial
  | cons s rest ih =>
    cases rest with
    | nil => trivial
    | cons t rrest =>
      obtain ⟨h1, h2⟩ := h
      exact ⟨by omega, ih h2⟩

theorem insertSeg_mem (n : MemorySegment) (l : List MemorySegment) :
    ∀ s ∈ insertSeg n l, s = n ∨ s ∈ l := by
  induction l with
  | nil => simp [insertSeg]
  | cons t rest ih =>
    intro s hs
    by_cases h : n.start_address ≤ t.start_address
    · simp only [insertSeg, if_pos h] at hs
      rcases List.mem_cons.mp hs with h1 | h1
      · exact Or.inl h1
      · exact Or.inr h1
    · simp only [insertSeg, if_neg h] at hs
      rcases List.mem_cons.mp hs with h1 | h1
      · exact Or.inr (by simp [h1])
      · rcases ih s h1 with h2 | h2
        · exact Or.inl h2
        · exact Or.inr (by simp [h2])

theorem insertSeg_sorted (n : MemorySegment) (l : List MemorySegment)
    (hord : SegsOrdered l) (hd : ∀ s ∈ l, segDisjoint n s)
    (hn : 0 < n.data.length) (hpos : ∀ s ∈ l, 0 < s.data.length) :
    SegsSorted (insertSeg n l) := by
  induction l with
  | nil => trivial
  | cons t rest ih =>
    have hdt := hd t (by simp)
    have hpt := hpos t (by simp)
    by_cases h : n.start_address ≤ t.start_address
    · simp only [insertSeg, if_pos h]
      refine ⟨?_, segsOrdered_sorted _ hord⟩
      unfold segDisjoint at hdt
      omega
    · simp only [insertSeg, if_neg h]
      cases rest with
      | nil =>
        simp only [insertSeg]
        exact ⟨by unfold segDisjoint at hdt; omega, trivial⟩
      | cons r rrest =>
        obtain ⟨ho1, ho2⟩ := hord
        have hdr := hd r (by simp)
        have ihs := ih ho2 (fun s hs => hd s (List.mem_cons_of_mem _ hs))
          (fun s hs => hpos s (List.mem_cons_of_mem _ hs))
        by_cases h2 : n.start_address ≤ r.start_address
        · simp only [insertSeg, if_pos h2] at ihs ⊢
          refine ⟨?_, ihs⟩
          unfold segDisjoint at hdt
          omega
        · simp only [insertSeg, if_neg h2] at ihs ⊢
          exact ⟨by omega, ihs⟩

theorem insertSeg_segByte (n : MemorySegment) (l : List MemorySegment) (ra : Nat)
    (hd : ∀ s ∈ l, segDisjoint n s) :
    segByte (insertSeg n l) ra =
      if segContains n ra then n.data.getD (ra - n.start_address) 0 else segByte l ra := by
  induction l with
  | nil =>
    simp only [insertSeg]
    rw [segByte_cons]
  | cons t rest ih =>
    have hdt := hd t (by simp)
    by_cases h : n.start_address ≤ t.start_address
    · simp only [insertSeg, if_pos h]
      rw [segByte_cons]
    · simp only [insertSeg, if_neg h]
      rw [segByte_cons]
      by_cases hct : segContains t ra
      · have hcn : ¬segContains n ra := by
          unfold segDisjoint at hdt
          unfold segContains at hct ⊢
          omega
        rw [if_pos hct, if_neg hcn, segByte_cons, if_pos hct]
      · rw [if_neg hct, ih (fun s hs => hd s (List.mem_cons_of_mem _ hs)),
          segByte_cons, if_neg hct]

theorem block_disjoint (s : MemorySegment) (ra : Nat) (ha : SegAligned s)
    (hnc : ¬segContains s ra) (d : List Nat) (hlen : d.length = DEFAULT_SIZE) :
    segDisjoint ⟨ra / DEFAULT_SIZE * DEFAULT_SIZE, d⟩ s := by
  obtain ⟨h1, h2, h3⟩ := ha
  unfold segContains at hnc
  unfold segDisjoint
  simp only [hlen, DEFAULT_SIZE] at *
  omega

theorem write_byte_base (m : Memory) (a v : Nat) :
    (m.write_byte a v).base_address = m.base_address := by
  unfold Memory.write_byte
  by_cases hf : (find_segment m.segments (a - m.base_address)).isSome <;> simp [hf]

theorem write_byte_segments_some (m : Memory) (a v : Nat)
    (hf : (find_segment m.segments (a - m.base_address)).isSome) :
    (m.write_byte a v).segments =
      mergeSegs (writeInSegments m.segments (a - m.base_address) v) := by
  unfold Memory.write_byte
  simp [hf]

theorem write_byte_segments_none (m : Memory) (a v : Nat)
    (hf : ¬(find_segment m.segments (a - m.base_address)).isSome) :
    (m.write_byte a v).segments =
      mergeSegs (insertSeg (freshSeg (a - m.base_address) v) m.segments) := by
  unfold Memory.write_byte freshSeg
  simp [hf]

theorem freshSeg_len (ra v : Nat) : (freshSeg ra v).data.length = DEFAULT_SIZE := by
  simp [freshSeg, List.length_set]

theorem freshSeg_aligned (ra v : Nat) : SegAligned (freshSeg ra v) := by
  refine ⟨?_, ?_, ?_⟩
  · show ra / DEFAULT_SIZE * DEFAULT_SIZE % DEFAULT_SIZE = 0
    simp [Nat.mul_mod_left]
  · rw [freshSeg_len]
    simp
  · rw [freshSeg_len]
    simp [DEFAULT_SIZE]

theorem freshSeg_contains (ra v : Nat) (ra' : Nat) :
    segContains (freshSeg ra v) ra' ↔
      ra / DEFAULT_SIZE * DEFAULT_SIZE ≤ ra' ∧
      ra' < ra / DEFAULT_SIZE * DEFAULT_SIZE + DEFAULT_SIZE := by
  unfold segContains
  rw [freshSeg_len]
  exact Iff.rfl

theorem freshSeg_contains_self (ra v : Nat) : segContains (freshSeg ra v) ra := by
  rw [freshSeg_contains]
  simp only [DEFAULT_SIZE]
  omega

theorem write_byte_WF (m : Memory) (a v : Nat) (h : MemWF m.segments) :
    MemWF (m.write_byte a v).segments := by
  obtain ⟨hal, hord⟩ := h
  by_cases hf : (find_segment m.segments (a - m.base_address)).isSome
  · rw [write_byte_segments_some m a v hf]
    constructor
    · exact mergeSegs_aligned _ (segAligned_all_congr m.segments _ (writeIn_shape _ _ _).symm hal)
    · exact mergeSegs_sorted _ (segsOrdered_sorted _
        (segsOrdered_congr m.segments _ (writeIn_shape _ _ _).symm hord))
  · rw [write_byte_segments_none m a v hf]
    have hnone : find_segment m.segments (a - m.base_address) = none := by
      cases hfind : find_segment m.segments (a - m.base_address)
      · rfl
      · simp [hfind] at hf
    have hnotc := (find_segment_none_iff m.segments (a - m.base_address)).mp hnone
    have hdisj : ∀ s ∈ m.segments, segDisjoint (freshSeg (a - m.base_address) v) s := by
      intro s hs
      exact block_disjoint s (a - m.base_address) (hal s hs) (hnotc s hs) _
        (by simp [List.length_set])
    constructor
    · apply mergeSegs_aligned
      intro s hs
      rcases insertSeg_mem _ m.segments s hs with h1 | h1
      · subst h1; exact freshSeg_aligned _ _
      · exact hal s h1
    · apply mergeSegs_sorted
      apply insertSeg_sorted _ m.segments hord hdisj
      · rw [freshSeg_len]; simp [DEFAULT_SIZE]
      · intro s hs
        exact (hal s hs).2.2

theorem write_byte_read (m : Memory) (hwf : MemWF m.segments) (a v x : Nat) :
    (m.write_byte a v).read_byte x =
      if x - m.base_address = a - m.base_address then v else m.read_byte x := by
  obtain ⟨hal, hord⟩ := hwf
  rw [read_byte_eq_segByte, read_byte_eq_segByte, write_byte_base]
  by_cases hf : (find_segment m.segments (a - m.base_address)).isSome
  · rw [write_byte_segments_some m a v hf]
    rw [mergeSegs_segByte _ (segsOrdered_sorted _
      (segsOrdered_congr m.segments _ (writeIn_shape _ _ _).symm hord))]
    by_cases he : x - m.base_address = a - m.base_address
    · rw [if_pos he, he]
      exact writeIn_segByte_eq m.segments _ v hf
    · rw [if_neg he]
      exact writeIn_segByte_ne m.segments _ v _ he
  · rw [write_byte_segments_none m a v hf]
    have hnone : find_segment m.segments (a - m.base_address) = none := by
      cases hfind : find_segment m.segments (a - m.base_address)
      · rfl
      · simp [hfind] at hf
    have hnotc := (find_segment_none_iff m.segments (a - m.base_address)).mp hnone
    have hdisj : ∀ s ∈ m.segments, segDisjoint (freshSeg (a - m.base_address) v) s := by
      intro s hs
      exact block_disjoint s (a - m.base_address) (hal s hs) (hnotc s hs) _
        (by simp [List.length_set])
    rw [mergeSegs_segByte _ (insertSeg_sorted _ m.segments hord hdisj
      (by rw [freshSeg_len]; simp [DEFAULT_SIZE]) (fun s hs => (hal s hs).2.2))]
    rw [insertSeg_segByte _ m.segments _ hdisj]
    by_cases he : x - m.base_address = a - m.base_address
    · rw [if_pos he, he, if_pos (freshSeg_contains_self _ v)]
      show ((List.replicate DEFAULT_SIZE 0).set
        (a - m.base_address - (a - m.base_address) / DEFAULT_SIZE * DEFAULT_SIZE) v).getD
        (a - m.base_address - (a - m.base_address) / DEFAULT_SIZE * DEFAULT_SIZE) 0 = v
      apply getD_set_self
      simp only [List.length_set, List.length_replicate, DEFAULT_SIZE]
      omega
    · rw [if_neg he]
      by_cases hc : segContains (freshSeg (a - m.base_address) v) (x - m.base_address)
      · rw [if_pos hc]
        rw [freshSeg_contains] at hc
        show ((List.replicate DEFAULT_SIZE 0).set
          (a - m.base_address - (a - m.base_address) / DEFAULT_SIZE * DEFAULT_SIZE) v).getD
          (x - m.base_address - (a - m.base_address) / DEFAULT_SIZE * DEFAULT_SIZE) 0 = segByte m.segments (x - m.base_address)
        have hDS : (0:Nat) < DEFAULT_SIZE := by simp [DEFAULT_SIZE]
        have hain : (a - m.base_address) / DEFAULT_SIZE * DEFAULT_SIZE ≤ a - m.base_address ∧
            a - m.base_address < (a - m.base_address) / DEFAULT_SIZE * DEFAULT_SIZE + DEFAULT_SIZE := by
          simp only [DEFAULT_SIZE]
          omega
        rw [getD_set_ne _ _ _ _ _ (by omega), getD_replicate_lt _ _ _ _ (by omega)]
        symm
        apply segByte_not_contained
        intro s hs
        have hd := hdisj s hs
        unfold segDisjoint at hd
        rw [freshSeg_len] at hd
        unfold segContains
        have hfs : (freshSeg (a - m.base_address) v).start_address =
            (a - m.base_address) / DEFAULT_SIZE * DEFAULT_SIZE := rfl
        rw [hfs] at hd
        omega
      · rw [if_neg hc]

theorem write_byte_read_addr (m : Memory) (hwf : MemWF m.segments) (a v x : Nat)
    (ha : m.base_address ≤ a) (hx : m.base_address ≤ x) :
    (m.write_byte a v).read_byte x = if x = a then v else m.read_byte x := by
  rw [write_byte_read m hwf a v x]
  by_cases he : x = a
  · rw [if_pos he, if_pos (by omega)]
  · rw [if_neg he, if_neg (by omega)]

theorem writeBytes_base (m : Memory) (a : Nat) (bs : List Nat) :
    (writeBytes m a bs).base_address = m.base_address := by
  induction bs generalizing m a with
  | nil => rfl
  | cons b rest ih => rw [writeBytes, ih, write_byte_base]

theorem writeBytes_WF (m : Memory) (a : Nat) (bs : List Nat) (h : MemWF m.segments) :
    MemWF (writeBytes m a bs).segments := by
  induction bs generalizing m a with
  | nil => exact h
  | cons b rest ih => exact ih _ _ (write_byte_WF m a b h)

theorem writeBytes_read (m : Memory) (a : Nat) (bs : List Nat) (x : Nat)
    (hwf : MemWF m.segments) (ha : m.base_address ≤ a) (hx : m.base_address ≤ x) :
    (writeBytes m a bs).read_byte x =
      if a ≤ x ∧ x < a + bs.length then bs.getD (x - a) 0 else m.read_byte x := by
  induction bs generalizing m a with
  | nil =>
    rw [writeBytes, if_neg (by simp only [List.length_nil, Nat.add_zero]; omega)]
  | cons b rest ih =>
    rw [writeBytes, ih _ _ (write_byte_WF m a b hwf) (by rw [write_byte_base]; omega)
      (by rw [write_byte_base]; exact hx)]
    rw [write_byte_read_addr m hwf a b x ha hx]
    by_cases h1 : x = a
    · subst h1
      rw [if_neg (show ¬(x + 1 ≤ x ∧ x < x + 1 + rest.length) by omega), if_pos rfl,
        if_pos (show x ≤ x ∧ x < x + (b :: rest).length by
          simp only [List.length_cons]; omega)]
      simp
    · by_cases h2 : a + 1 ≤ x ∧ x < a + 1 + rest.length
      · rw [if_pos h2,
          if_pos (show a ≤ x ∧ x < a + (b :: rest).length by
            simp only [List.length_cons]; omega)]
        have hxa : x - a = (x - (a + 1)) + 1 := by omega
        rw [hxa]
        rfl
      · rw [if_neg h2, if_neg h1,
          if_neg (show ¬(a ≤ x ∧ x < a + (b :: rest).length) by
            simp only [List.length_cons]; omega)]

theorem writeList_base (m : Memory) (ws : List (Nat × Nat)) :
    (writeList m ws).base_address = m.base_address := by
  induction ws generalizing m with
  | nil => rfl
  | cons p rest ih =>
    obtain ⟨a, v⟩ := p
    rw [writeList, ih, write_byte_base]

theorem writeList_WF (m : Memory) (ws : List (Nat × Nat)) (h : MemWF m.segments) :
    MemWF (writeList m ws).segments := by
  induction ws generalizing m with
  | nil => exact h
  | cons p rest ih =>
    obtain ⟨a, v⟩ := p
    exact ih _ (write_byte_WF m a v h)

theorem writeList_read_untouched (m : Memory) (ws : List (Nat × Nat)) (x : Nat)
    (hwf : MemWF m.segments) (hx : m.base_address ≤ x)
    (hws : ∀ p ∈ ws, m.base_address ≤ p.1) (hnot : ∀ p ∈ ws, p.1 ≠ x) :
    (writeList m ws).read_byte x = m.read_byte x := by
  induction ws generalizing m with
  | nil => rfl
  | cons p rest ih =>
    obtain ⟨a, v⟩ := p
    rw [writeList, ih _ (write_byte_WF m a v hwf) (by rw [write_byte_base]; exact hx)
      (fun q hq => by rw [write_byte_base]; exact hws q (List.mem_cons_of_mem _ hq))
      (fun q hq => hnot q (List.mem_cons_of_mem _ hq))]
    rw [write_byte_read_addr m hwf a v x (hws (a, v) (by simp)) hx,
      if_neg (fun he => hnot (a, v) (by simp) (by simp [he]))]

theorem memWF_new (base : Nat) : MemWF (Memory.new base).segments :=
  ⟨by simp [Memory.new], trivial⟩

theorem read_byte_new (base x : Nat) : (Memory.new base).read_byte x = 0 := rfl

/-! ## Register lemmas -/

theorem registers_new_WF : Registers.WF Registers.new := by
  refine ⟨by rfl, ?_, by rfl, ?_, by positivity, by positivity⟩
  · intro r hr
    rw [List.eq_of_mem_replicate hr]
    rfl
  · intro v hv
    rw [List.eq_of_mem_replicate hv]
    positivity

theorem WF_simdAt (regs : Registers) (h : Registers.WF regs) (idx : Nat) (hidx : idx < 16) :
    (regs.simdAt idx).bits.length = 512 := by
  obtain ⟨h1, h2, _⟩ := h
  have hlt : idx < regs.simd_registers.length := by omega
  have : regs.simdAt idx = regs.simd_registers[idx] := by
    simp [Registers.simdAt, List.getD, List.getElem?_eq_getElem hlt]
  rw [this]
  exact h2 _ (List.getElem_mem hlt)

theorem simdAt_simdSet_self (regs : Registers) (idx : Nat) (r : SIMDRegister)
    (h : idx < regs.simd_registers.length) :
    (regs.simdSet idx r).simdAt idx = r := by
  simp [Registers.simdAt, Registers.simdSet, List.getD, List.getElem?_set_self', h]

theorem setStep_length (tb b v : Nat) (bl : List Bool) (k : Nat) :
    (setStep tb b v bl k).length = bl.length := by
  unfold setStep
  by_cases h1 : bl.length ≤ b + k
  · rw [if_pos h1]
  · rw [if_neg h1]
    by_cases h2 : tb ≤ k
    · rw [if_pos h2, List.length_set]
    · rw [if_neg h2]
      by_cases h3 : v.testBit k
      · rw [if_pos h3, List.length_set]
      · rw [if_neg h3, List.length_set]

theorem set_by_index_fold_length (tb b v : Nat) :
    ∀ (n : Nat) (bits : List Bool),
      ((List.range n).foldl (setStep tb b v) bits).length = bits.length := by
  intro n
  induction n with
  | zero => intro bits; rfl
  | succ n ih =>
    intro bits
    rw [List.range_succ, List.foldl_append]
    simp only [List.foldl_cons, List.foldl_nil]
    rw [setStep_length, ih]

theorem setStep_getD_past (tb b v : Nat) (bl : List Bool) (k x : Nat) (hx : x ≠ b + k) :
    (setStep tb b v bl k).getD x false = bl.getD x false := by
  unfold setStep
  by_cases h1 : bl.length ≤ b + k
  · rw [if_pos h1]
  · rw [if_neg h1]
    by_cases h2 : tb ≤ k
    · rw [if_pos h2, getD_set_ne _ _ _ _ _ (by omega)]
    · rw [if_neg h2]
      by_cases h3 : v.testBit k
      · rw [if_pos h3, getD_set_ne _ _ _ _ _ (by omega)]
      · rw [if_neg h3, getD_set_ne _ _ _ _ _ (by omega)]

theorem setStep_getD_self (tb b v : Nat) (bl : List Bool) (k : Nat) (hk : b + k < bl.length) :
    (setStep tb b v bl k).getD (b + k) false =
      if k < tb then v.testBit k else false := by
  unfold setStep
  rw [if_neg (by omega)]
  by_cases h2 : tb ≤ k
  · rw [if_pos h2, getD_set_self _ _ _ _ hk, if_neg (show ¬k < tb by omega)]
  · rw [if_neg h2]
    by_cases h3 : v.testBit k
    · rw [if_pos h3, getD_set_self _ _ _ _ hk, if_pos (show k < tb by omega), h3]
    · rw [if_neg h3, getD_set_self _ _ _ _ hk, if_pos (show k < tb by omega)]
      exact ((Bool.not_eq_true _).mp h3).symm

theorem set_by_index_fold_getD (tb b v : Nat) :
    ∀ (n : Nat) (bits : List Bool) (x : Nat), x < bits.length →
      ((List.range n).foldl (setStep tb b v) bits).getD x false =
      if b ≤ x ∧ x < b + n then (if x - b < tb then v.testBit (x - b) else false)
      else bits.getD x false := by
  intro n
  induction n with
  | zero =>
    intro bits x hx
    rw [if_neg (by omega)]
    rfl
  | succ n ih =>
    intro bits x hx
    rw [List.range_succ, List.foldl_append]
    simp only [List.foldl_cons, List.foldl_nil]
    have hlen := set_by_index_fold_length tb b v n bits
    by_cases hxeq : x = b + n
    · subst hxeq
      rw [setStep_getD_self tb b v _ n (by omega),
        if_pos (show b ≤ b + n ∧ b + n < b + (n + 1) by omega)]
      simp only [Nat.add_sub_cancel_left]
    · rw [setStep_getD_past tb b v _ n _ hxeq, ih bits x hx]
      by_cases h2 : b ≤ x ∧ x < b + n
      · rw [if_pos h2, if_pos (show b ≤ x ∧ x < b + (n + 1) by omega)]
      · rw [if_neg h2, if_neg (show ¬(b ≤ x ∧ x < b + (n + 1)) by omega)]

theorem set_by_index_length (tb : Nat) (r : SIMDRegister) (b a v : Nat) :
    (r.set_by_index tb b a v).bits.length = r.bits.length := by
  unfold SIMDRegister.set_by_index
  exact set_by_index_fold_length tb b v _ r.bits

theorem set_by_index_getD (tb : Nat) (r : SIMDRegister) (b a v : Nat) (x : Nat)
    (hx : x < r.bits.length) :
    (r.set_by_index tb b a v).bits.getD x false =
      if b ≤ x ∧ x < b + (a + 1 - b) then (if x - b < tb then v.testBit (x - b) else false)
      else r.bits.getD x false := by
  unfold SIMDRegister.set_by_index
  exact set_by_index_fold_getD tb b v _ r.bits x hx

theorem get_by_index_some (tb : Nat) (r : SIMDRegister) (b a : Nat)
    (hba : b ≤ a) (htb : a - b + 1 ≤ tb) :
    r.get_by_index tb b a =
      some (orBits (fun k => r.bits.getD (b + k) false) (a - b + 1)) := by
  unfold SIMDRegister.get_by_index
  rw [if_neg (by omega), if_neg (by omega)]

theorem get_sections_length (tb : Nat) (r : SIMDRegister) :
    (r.get_sections tb).length = (r.bits.length + tb - 1) / tb := by
  simp [SIMDRegister.get_sections]

theorem get_sections_getD (tb : Nat) (r : SIMDRegister) (k : Nat)
    (h : k < (r.bits.length + tb - 1) / tb) :
    (r.get_sections tb).getD k 0 =
      orBits (fun j => r.bits.getD (k * tb + j) false) tb := by
  unfold SIMDRegister.get_sections
  exact getD_map_range _ _ _ _ h

/-! ## Bitmask lemmas for the 64-bit merge rules -/

theorem testBit_ge_64 (x k : Nat) (hx : x < 2 ^ 64) (hk : 64 ≤ k) : x.testBit k = false :=
  Nat.testBit_lt_two_pow (lt_of_lt_of_le hx (Nat.pow_le_pow_right (by norm_num) hk))

theorem highMask_testBit (w k : Nat) (hw : w ≤ 64) :
    ((2 : Nat) ^ 64 - 2 ^ w).testBit k = (decide (w ≤ k) && decide (k < 64)) := by
  have hsum : 64 - w + w = 64 := by omega
  have he : (2 : Nat) ^ 64 - 2 ^ w = (2 ^ (64 - w) - 1) <<< w := by
    rw [Nat.shiftLeft_eq, Nat.sub_mul, one_mul, ← pow_add, hsum]
  rw [he, Nat.testBit_shiftLeft, Nat.testBit_two_pow_sub_one]
  by_cases h1 : w ≤ k
  · rw [decide_eq_true h1]
    by_cases h2 : k < 64
    · rw [decide_eq_true h2, decide_eq_true (show k - w < 64 - w by omega)]
    · rw [decide_eq_false h2, decide_eq_false (show ¬k - w < 64 - w by omega)]
  · rw [decide_eq_false h1]
    simp

theorem merge_mask_testBit (old v w k : Nat) (hw : w ≤ 64) (hold : old < 2 ^ 64) :
    ((old &&& (2 ^ 64 - 2 ^ w)) ||| (v &&& (2 ^ w - 1))).testBit k =
      if k < w then v.testBit k else old.testBit k := by
  rw [Nat.testBit_or, Nat.testBit_and, Nat.testBit_and, highMask_testBit w k hw,
    Nat.testBit_two_pow_sub_one]
  by_cases h1 : k < w
  · rw [if_pos h1, decide_eq_true h1, decide_eq_false (show ¬w ≤ k by omega)]
    simp
  · rw [if_neg h1, decide_eq_true (show w ≤ k by omega), decide_eq_false h1]
    by_cases h2 : k < 64
    · rw [decide_eq_true h2]
      simp
    · rw [decide_eq_false h2]
      simp [testBit_ge_64 old k hold (by omega)]

theorem high8_merge_testBit (old v k : Nat) (hold : old < 2 ^ 64) :
    ((old &&& 0xFFFFFFFFFFFF00FF) ||| ((v <<< 8) &&& 0xFF00)).testBit k =
      if 8 ≤ k ∧ k < 16 then v.testBit (k - 8) else old.testBit k := by
  have hm : (0xFFFFFFFFFFFF00FF : Nat) = (2 ^ 64 - 2 ^ 16) ||| (2 ^ 8 - 1) := by decide
  have hm2 : (0xFF00 : Nat) = (2 ^ 8 - 1) <<< 8 := by decide
  rw [hm, hm2, Nat.testBit_or, Nat.testBit_and, Nat.testBit_or,
    highMask_testBit 16 k (by norm_num), Nat.testBit_two_pow_sub_one,
    Nat.testBit_and, Nat.testBit_shiftLeft, Nat.testBit_shiftLeft,
    Nat.testBit_two_pow_sub_one]
  by_cases h1 : k < 8
  · rw [if_neg (by omega), decide_eq_false (show ¬16 ≤ k by omega),
      decide_eq_true h1, decide_eq_false (show ¬8 ≤ k by omega)]
    simp
  · by_cases h2 : k < 16
    · rw [if_pos (by omega), decide_eq_false (show ¬16 ≤ k by omega),
        decide_eq_false (show ¬k < 8 by omega), decide_eq_true (show 8 ≤ k by omega),
        decide_eq_true (show k - 8 < 8 by omega)]
      simp
    · by_cases h3 : k < 64
      · rw [if_neg (by omega), decide_eq_true (show 16 ≤ k by omega),
          decide_eq_true h3, decide_eq_false (show ¬k < 8 by omega),
          decide_eq_true (show 8 ≤ k by omega), decide_eq_false (show ¬k - 8 < 8 by omega)]
        simp
      · rw [if_neg (by omega), decide_eq_false (show ¬k < 64 by omega),
          decide_eq_false (show ¬k < 8 by omega), decide_eq_false (show ¬k - 8 < 8 by omega)]
        simp [testBit_ge_64 old k hold (by omega)]

theorem and_low32 (v : Nat) : v &&& 0xFFFFFFFF = v % 2 ^ 32 := by
  have h : (0xFFFFFFFF : Nat) = 2 ^ 32 - 1 := by norm_num
  rw [h, Nat.and_pow_two_sub_one_eq_mod]

theorem and_low16 (v : Nat) : v &&& 0xFFFF = v % 2 ^ 16 := by
  have h : (0xFFFF : Nat) = 2 ^ 16 - 1 := by norm_num
  rw [h, Nat.and_pow_two_sub_one_eq_mod]

theorem and_low8 (v : Nat) : v &&& 0xFF = v % 2 ^ 8 := by
  have h : (0xFF : Nat) = 2 ^ 8 - 1 := by norm_num
  rw [h, Nat.and_pow_two_sub_one_eq_mod]

theorem mask_lit_32 : (0xFFFFFFFF00000000 : Nat) = 2 ^ 64 - 2 ^ 32 := by norm_num

theorem mask_lit_16 : (0xFFFFFFFFFFFF0000 : Nat) = 2 ^ 64 - 2 ^ 16 := by norm_num

theorem mask_lit_8 : (0xFFFFFFFFFFFFFF00 : Nat) = 2 ^ 64 - 2 ^ 8 := by norm_num

theorem mask_lit_w32 : (0xFFFFFFFF : Nat) = 2 ^ 32 - 1 := by norm_num

theorem mask_lit_w16 : (0xFFFF : Nat) = 2 ^ 16 - 1 := by norm_num

theorem mask_lit_w8 : (0xFF : Nat) = 2 ^ 8 - 1 := by norm_num

/-! ## Selector parser lemmas -/

theorem findSub_append (stop : Char) (xs rest : List Char)
    (hstop : stop ∉ xs) (hnl : '\n' ∉ xs) :
    findSub stop (xs ++ stop :: rest) = some (xs, rest) := by
  induction xs with
  | nil => simp [findSub]
  | cons c cs ih =>
    have hc1 : ¬c = stop := fun h => hstop (by simp [h])
    have hc2 : ¬c = '\n' := fun h => hnl (by simp [h])
    simp only [List.cons_append, findSub, if_neg hc1, if_neg hc2, List.append_eq,
      ih (fun h => hstop (by simp [h])) (fun h => hnl (by simp [h])), Option.map_some']

theorem matchBody_wellformed (s1 s2 : List Char)
    (h1 : ':' ∉ s1) (h1n : '\n' ∉ s1) (h2 : ']' ∉ s2) (h2n : '\n' ∉ s2) :
    matchBody (s1 ++ ':' :: (s2 ++ [']'])) = some (s1, s2) := by
  unfold matchBody
  have hlen : (s1 ++ ':' :: (s2 ++ [']'])).length = s1.length + s2.length + 1 + 1 := by
    simp
    omega
  rw [hlen]
  show matchBodyAux (s1.length + s2.length + 1 + 1) _ = _
  rw [matchBodyAux]
  simp only [findSub_append ':' s1 (s2 ++ [']']) h1 h1n,
    show s2 ++ [']'] = s2 ++ ']' :: [] from rfl,
    findSub_append ']' s2 [] h2 h2n]

theorem regexScan_bracket (s1 s2 : List Char)
    (h1 : ':' ∉ s1) (h1n : '\n' ∉ s1) (h2 : ']' ∉ s2) (h2n : '\n' ∉ s2) :
    regexScan ('[' :: (s1 ++ ':' :: (s2 ++ [']']))) = some (s1, s2) := by
  rw [regexScan, if_pos rfl, matchBody_wellformed s1 s2 h1 h1n h2 h2n]

theorem extract_values_bracket (s1 s2 : List Char)
    (h1 : ':' ∉ s1) (h1n : '\n' ∉ s1) (h2 : ']' ∉ s2) (h2n : '\n' ∉ s2) :
    extract_values ⟨'[' :: (s1 ++ ':' :: (s2 ++ [']']))⟩ =
      some (tokenValue s1, tokenValue s2) := by
  unfold extract_values
  rw [show (String.mk ('[' :: (s1 ++ ':' :: (s2 ++ [']'])))).data =
    '[' :: (s1 ++ ':' :: (s2 ++ [']'])) from rfl]
  rw [regexScan_bracket s1 s2 h1 h1n h2 h2n]
  rfl

theorem tokenValue_of_denotes (t : List Char) (v : Nat) (h : tokenDenotes t v) :
    tokenValue t = v := by
  rcases h with ⟨ht, hv⟩ | ⟨hne, hdig, hlt, hval⟩
  · subst ht; subst hv; rfl
  · have hMAX : ¬t = ['M', 'A', 'X'] := by
      intro he
      subst he
      simp [List.all_cons] at hdig
    unfold tokenValue
    rw [if_neg hMAX]
    unfold parseUsize
    have hplus : ¬t.head? = some '+' := by
      intro he
      cases t with
      | nil => simp at he
      | cons c cs =>
        simp at he
        subst he
        simp [List.all_cons] at hdig
    rw [if_neg hplus]
    simp only [if_pos (And.intro hne (And.intro hdig hlt))]
    exact hval

theorem denotes_no_specials (t : List Char) (v : Nat) (h : tokenDenotes t v) :
    ':' ∉ t ∧ ']' ∉ t ∧ '\n' ∉ t := by
  rcases h with ⟨ht, _⟩ | ⟨_, hdig, _, _⟩
  · subst ht
    refine ⟨by decide, by decide, by decide⟩
  · have hd : ∀ c ∈ t, c.isDigit := by
      intro c hc
      exact List.all_eq_true.mp hdig c hc
    refine ⟨fun hm => ?_, fun hm => ?_, fun hm => ?_⟩ <;>
      · have := hd _ hm
        simp [Char.isDigit] at this

theorem getD_take {α : Type} (l : List α) (n k : Nat) (d : α) (h : k < n) :
    (l.take n).getD k d = l.getD k d := by
  simp [List.getD, List.getElem?_take, h]

theorem gprFamily_lt (name : GPRName) : gprFamily name < 16 := by
  cases name <;> decide

theorem extract_values_denotes (s1 s2 : List Char) (hi lo : Nat)
    (h1 : tokenDenotes s1 hi) (h2 : tokenDenotes s2 lo) :
    extract_values ⟨'[' :: (s1 ++ ':' :: (s2 ++ [']']))⟩ = some (hi, lo) := by
  obtain ⟨hc1, _, hn1⟩ := denotes_no_specials s1 hi h1
  obtain ⟨_, hb2, hn2⟩ := denotes_no_specials s2 lo h2
  rw [extract_values_bracket s1 s2 hc1 hn1 hb2 hn2,
    tokenValue_of_denotes s1 hi h1, tokenValue_of_denotes s2 lo h2]

theorem get_by_selector_spec (regs : Registers) (tb idx : Nat) (rt : VecRegName)
    (hi lo : Nat) (sel : String)
    (hext : extract_values sel = some (hi, lo)) (hlohi : lo ≤ hi)
    (htb : hi - lo + 1 ≤ tb) :
    ∃ g, Registers.get_by_selector tb regs rt idx sel = some g ∧
      ∀ k, g.testBit k =
        (decide (k ≤ hi - lo) && (regs.simdAt idx).bits.getD (lo + k) false) := by
  unfold Registers.get_by_selector
  simp only [hext]
  rw [get_by_index_some tb _ lo hi hlohi htb]
  refine ⟨_, rfl, fun k => ?_⟩
  rw [orBits_testBit]
  congr 1
  rw [decide_eq_decide]
  omega

theorem set_by_selector_spec (regs : Registers) (tb idx : Nat) (rt : VecRegName)
    (hi lo : Nat) (sel : String) (v : Nat)
    (hwf : regs.WF) (hidx : idx < 16)
    (hext : extract_values sel = some (hi, lo)) (hlohi : lo ≤ hi) (_hhi : hi < 512) :
    (Registers.set_by_selector tb regs rt idx sel v).2 = true ∧
    ∀ x, x < 512 →
      ((Registers.set_by_selector tb regs rt idx sel v).1.simdAt idx).bits.getD x false =
        if lo ≤ x ∧ x ≤ hi then (if x - lo < tb then v.testBit (x - lo) else false)
        else (regs.simdAt idx).bits.getD x false := by
  have hblen := WF_simdAt regs hwf idx hidx
  unfold Registers.set_by_selector
  simp only [hext]
  refine ⟨by trivial, fun x hx => ?_⟩
  rw [simdAt_simdSet_self regs idx _ (by rw [hwf.1]; omega),
    set_by_index_getD tb _ lo hi v x (by rw [hblen]; omega)]
  by_cases hc : lo ≤ x ∧ x ≤ hi
  · rw [if_pos (show lo ≤ x ∧ x < lo + (hi + 1 - lo) by omega), if_pos hc]
  · rw [if_neg (show ¬(lo ≤ x ∧ x < lo + (hi + 1 - lo)) by omega), if_neg hc]

theorem selector_roundtrip_31_0 (regs : Registers) (rt rt' : VecRegName) (idx v : Nat)
    (hwf : regs.WF) (hidx : idx < 16) :
    Registers.get_by_selector 32
      (Registers.set_by_selector 32 regs rt idx ("[31:0]") v).1 rt' idx ("[31:0]") =
      some (v % 2 ^ 32) := by
  have hext : extract_values ("[31:0]") = some (31, 0) := by decide
  obtain ⟨hok, hbits⟩ :=
    set_by_selector_spec regs 32 idx rt 31 0 ("[31:0]") v hwf hidx hext
      (by omega) (by omega)
  unfold Registers.get_by_selector
  simp only [hext]
  rw [get_by_index_some 32 _ 0 31 (by omega) (by omega)]
  congr 1
  apply Nat.eq_of_testBit_eq
  intro k
  rw [orBits_testBit, Nat.testBit_mod_two_pow]
  by_cases hk : k < 32
  · simp only [decide_eq_true (show k < 31 - 0 + 1 by omega),
      decide_eq_true (show k < 32 by omega), Bool.true_and]
    rw [hbits (0 + k) (by omega), if_pos (by omega), if_pos (by omega)]
    congr 1
    omega
  · simp [decide_eq_false (show ¬k < 31 - 0 + 1 by omega),
      decide_eq_false (show ¬k < 32 by omega)]

/-! ## Claims -/

/-- C5: for every slot, every view width and every section vector whose lane
count times the element bit width does not equal the view width exactly,
`set_by_sections` reports failure (`false`) and leaves the register state
completely unchanged; in particular passing only 3 elements of a 32-bit
type for an XMM destination fails and leaves prior contents unchanged. -/
theorem claim_set_by_sections_mismatch :
    (∀ (regs : Registers) (tb : Nat) (rt : VecRegName) (idx : Nat) (sections : List Nat),
      tb * sections.length ≠ vecWidth rt →
      Registers.set_by_sections tb regs rt idx sections = (regs, false)) ∧
    Registers.set_by_sections 32 Registers.new .XMM 2
      [2147483648, 2147483648, 2147483648] = (Registers.new, false) := by
  constructor
  · intro regs tb rt idx sections hne
    cases rt <;>
      · unfold Registers.set_by_sections
        simp only [vecWidth] at hne
        simp [hne]
  · rfl

theorem claim_set_by_sections_mismatch_witness :
    Registers.set_by_sections 64 Registers.new .YMM 1 [1, 2, 3] = (Registers.new, false) :=
  claim_set_by_sections_mismatch.1 Registers.new 64 .YMM 1 [1, 2, 3] (by decide)

/-- C6 counterexample: the selector `"[a:b]"` is not a well-formed bit range
(`a` and `b` are neither decimal nor `MAX`), yet `set_by_selector` succeeds
and mutates bit 0 (the malformed tokens are silently read as 0), and
`get_by_selector` returns a value rather than signalling absence. -/
theorem claim_selector_malformed_counterexample :
    (Registers.set_by_selector 32 Registers.new .XMM 0 ("[a:b]") 1).2 = true ∧
    (Registers.set_by_selector 32 Registers.new .XMM 0 ("[a:b]") 1).1.get_bit .XMM 0 0 =
      some true ∧
    Registers.new.get_bit .XMM 0 0 = some false ∧
    (Registers.get_by_selector 32 Registers.new .XMM 0 ("[a:b]")).isSome = true := by
  refine ⟨by decide, by decide, by decide, by decide⟩

/-- C6 (amended): for every selector string in which the regex
`\[(.*?):(.*?)\]` finds no match (`extract_values` returns `none`),
`get_by_selector` signals absence and `set_by_selector` fails leaving the
register state unchanged.  (When the bracket pattern does match, malformed
numeric tokens are permissively read as 0 — `MAX` as 511 — and the
operation proceeds.) -/
theorem claim_selector_no_match_fails :
    ∀ (s : String) (regs : Registers) (tb : Nat) (rt : VecRegName) (idx v : Nat),
      extract_values s = none →
      regs.get_by_selector tb rt idx s = none ∧
      regs.set_by_selector tb rt idx s v = (regs, false) := by
  intro s regs tb rt idx v h
  constructor
  · unfold Registers.get_by_selector
    rw [h]
  · unfold Registers.set_by_selector
    rw [h]

theorem claim_selector_no_match_fails_witness :
    Registers.get_by_selector 32 Registers.new .XMM 0 ("nope") = none ∧
    Registers.set_by_selector 32 Registers.new .XMM 0 ("nope") 7 =
      (Registers.new, false) :=
  claim_selector_no_match_fails ("nope") Registers.new 32 .XMM 0 7 (by decide)

/-- C2 (bug evidence): `SIMDRegister::set_by_sections` only ever sets bits
to `true` (the write loop has no else branch clearing zero bits), so a
successful `Registers::set_by_sections` call on a dirty register neither
makes the low `width` bits equal to the sections nor zeroes the bits above
`width`: writing all-zero XMM sections to a slot whose bits 5 and 300 are
set reports success yet leaves both bits set. -/
theorem claim_set_by_sections_or_bug :
    (Registers.set_by_sections 32
      ((Registers.new.set_bit .ZMM 0 5 true).set_bit .ZMM 0 300 true) .XMM 0
      [0, 0, 0, 0]).2 = true ∧
    (Registers.set_by_sections 32
      ((Registers.new.set_bit .ZMM 0 5 true).set_bit .ZMM 0 300 true) .XMM 0
      [0, 0, 0, 0]).1.get_bit .ZMM 0 300 = some true ∧
    (Registers.set_by_sections 32
      ((Registers.new.set_bit .ZMM 0 5 true).set_bit .ZMM 0 300 true) .XMM 0
      [0, 0, 0, 0]).1.get_bit .XMM 0 5 = some true := by
  refine ⟨by decide, by decide, by decide⟩

/-- C3 counterexample: a 32-bit IP write does NOT merge into the stored
64-bit value — starting from `RIP = 2^32`, `set_ip_value(EIP, 1)` leaves
`RIP = 1`, not `2^32 + 1`, so the high bits were discarded rather than
left unchanged. -/
theorem claim_ip_merge_counterexample :
    ((Registers.new.set_ip_value .RIP (2 ^ 32)).set_ip_value .EIP 1).rip = 1 ∧
    (Registers.new.set_ip_value .RIP (2 ^ 32)).rip = 2 ^ 32 ∧
    (1 : Nat) ≠ 2 ^ 32 + 1 := by
  refine ⟨by decide, rfl, by norm_num⟩

/-- C3 (amended): the flags register merges on narrow sets (a 32- or 16-bit
set replaces only the low bits and keeps the high bits) and masks on narrow
gets; the instruction pointer instead REPLACES the whole stored 64-bit
value with the written value masked to the chosen width (zero-extension,
clearing all higher bits) and masks on narrow gets. -/
theorem claim_flags_merge_ip_replace :
    (∀ (regs : Registers) (v k : Nat), regs.rflags < 2 ^ 64 →
      ((regs.set_flags_value .EFLAGS v).rflags.testBit k =
        if k < 32 then v.testBit k else regs.rflags.testBit k) ∧
      ((regs.set_flags_value .FLAGS v).rflags.testBit k =
        if k < 16 then v.testBit k else regs.rflags.testBit k)) ∧
    (∀ regs : Registers,
      regs.get_flags_value .EFLAGS = regs.rflags % 2 ^ 32 ∧
      regs.get_flags_value .FLAGS = regs.rflags % 2 ^ 16) ∧
    (∀ (regs : Registers) (v : Nat),
      (regs.set_ip_value .EIP v).rip = v % 2 ^ 32 ∧
      (regs.set_ip_value .IP v).rip = v % 2 ^ 16) ∧
    (∀ regs : Registers,
      regs.get_ip_value .EIP = regs.rip % 2 ^ 32 ∧
      regs.get_ip_value .IP = regs.rip % 2 ^ 16) := by
  refine ⟨?_, ?_, ?_, ?_⟩
  · intro regs v k hold
    constructor
    · show ((regs.rflags &&& 0xFFFFFFFF00000000) ||| (v &&& 0xFFFFFFFF)).testBit k = _
      rw [mask_lit_32, mask_lit_w32, merge_mask_testBit _ _ 32 k (by norm_num) hold]
    · show ((regs.rflags &&& 0xFFFFFFFFFFFF0000) ||| (v &&& 0xFFFF)).testBit k = _
      rw [mask_lit_16, mask_lit_w16, merge_mask_testBit _ _ 16 k (by norm_num) hold]
  · intro regs
    exact ⟨and_low32 _, and_low16 _⟩
  · intro regs v
    exact ⟨and_low32 v, and_low16 v⟩
  · intro regs
    exact ⟨and_low32 _, and_low16 _⟩

theorem claim_flags_merge_ip_replace_witness :
    (Registers.new.set_flags_value .EFLAGS 5).rflags.testBit 40 =
      if 40 < 32 then (5 : Nat).testBit 40 else Registers.new.rflags.testBit 40 :=
  (claim_flags_merge_ip_replace.1 Registers.new 5 40 (by decide)).1

/-- C7: GPR alias writes follow the x86 merge rules — a 32-bit alias write
zero-extends the low 32 bits of the input into the whole 64-bit family
value; a 16-bit alias write replaces only bits 0–15; a low-byte write
replaces only bits 0–7; a high-byte write (families A/B/C/D) shifts the low
8 bits of the input left by 8 and replaces only bits 8–15; and concretely,
`set_gpr_value(EAX, 0xFFFFFFFF)` then `get_gpr_value(RAX)` gives
`0xFFFFFFFF`, after which `set_gpr_value(AL, 0xFF)` changes only
bits 0–7 of RAX. -/
theorem claim_gpr_alias_merge :
    (∀ (regs : Registers) (name : GPRName) (v : Nat),
      regs.gpr.length = 16 →
      aliasKind name = .low32 →
      (regs.set_gpr_value name v).gprGet (gprFamily name) = v % 2 ^ 32) ∧
    (∀ (regs : Registers) (name : GPRName) (v k : Nat),
      regs.gpr.length = 16 → regs.gprGet (gprFamily name) < 2 ^ 64 →
      aliasKind name = .low16 →
      ((regs.set_gpr_value name v).gprGet (gprFamily name)).testBit k =
        if k < 16 then v.testBit k else (regs.gprGet (gprFamily name)).testBit k) ∧
    (∀ (regs : Registers) (name : GPRName) (v k : Nat),
      regs.gpr.length = 16 → regs.gprGet (gprFamily name) < 2 ^ 64 →
      aliasKind name = .low8 →
      ((regs.set_gpr_value name v).gprGet (gprFamily name)).testBit k =
        if k < 8 then v.testBit k else (regs.gprGet (gprFamily name)).testBit k) ∧
    (∀ (regs : Registers) (name : GPRName) (v k : Nat),
      regs.gpr.length = 16 → regs.gprGet (gprFamily name) < 2 ^ 64 →
      aliasKind name = .high8 →
      ((regs.set_gpr_value name v).gprGet (gprFamily name)).testBit k =
        if 8 ≤ k ∧ k < 16 then v.testBit (k - 8)
        else (regs.gprGet (gprFamily name)).testBit k) ∧
    ((Registers.new.set_gpr_value .EAX 0xFFFFFFFF).get_gpr_value .RAX = 0xFFFFFFFF ∧
     ((Registers.new.set_gpr_value .EAX 0xFFFFFFFF).set_gpr_value .AL 0xFF).get_gpr_value
       .RAX = 0xFFFFFFFF) := by
  have hset : ∀ (regs : Registers) (fam x : Nat), fam < 16 → regs.gpr.length = 16 →
      (regs.gprSet fam x).gprGet fam = x := by
    intro regs fam x hfam hlen
    unfold Registers.gprSet Registers.gprGet
    exact getD_set_self _ _ _ _ (by omega)
  refine ⟨?_, ?_, ?_, ?_, by decide, by decide⟩
  · intro regs name v hlen hkind
    unfold Registers.set_gpr_value
    simp only [hkind]
    rw [hset regs _ _ (gprFamily_lt name) hlen, and_low32]
  · intro regs name v k hlen hold hkind
    unfold Registers.set_gpr_value
    simp only [hkind]
    rw [hset regs _ _ (gprFamily_lt name) hlen, mask_lit_16, mask_lit_w16,
      merge_mask_testBit _ _ 16 k (by norm_num) hold]
  · intro regs name v k hlen hold hkind
    unfold Registers.set_gpr_value
    simp only [hkind]
    rw [hset regs _ _ (gprFamily_lt name) hlen, mask_lit_8, mask_lit_w8,
      merge_mask_testBit _ _ 8 k (by norm_num) hold]
  · intro regs name v k hlen hold hkind
    unfold Registers.set_gpr_value
    simp only [hkind]
    rw [hset regs _ _ (gprFamily_lt name) hlen, high8_merge_testBit _ _ k hold]

theorem claim_gpr_alias_merge_witness :
    (Registers.new.set_gpr_value .EAX 0xFFFFFFFFFF).gprGet (gprFamily .EAX) =
      0xFFFFFFFFFF % 2 ^ 32 ∧
    ((Registers.new.set_gpr_value .AH 0xAB).gprGet (gprFamily .AH)).testBit 9 =
      if 8 ≤ 9 ∧ 9 < 16 then (0xAB : Nat).testBit (9 - 8)
      else (Registers.new.gprGet (gprFamily .AH)).testBit 9 :=
  ⟨claim_gpr_alias_merge.1 Registers.new .EAX 0xFFFFFFFFFF (by decide) (by decide),
   (claim_gpr_alias_merge.2.2.2.1) Registers.new .AH 0xAB 9 (by decide) (by decide)
     (by decide)⟩

/-- C10 (frame effect): `set_gpr_value` on any alias modifies at most the
64-bit value of that alias's family — the SIMD registers, RFLAGS, RIP and
the 15 other GPR family values are left unchanged. -/
theorem claim_set_gpr_frame :
    ∀ (regs : Registers) (name : GPRName) (v : Nat),
      (regs.set_gpr_value name v).simd_registers = regs.simd_registers ∧
      (regs.set_gpr_value name v).rflags = regs.rflags ∧
      (regs.set_gpr_value name v).rip = regs.rip ∧
      ∀ i, i ≠ gprFamily name →
        (regs.set_gpr_value name v).gpr.getD i 0 = regs.gpr.getD i 0 := by
  intro regs name v
  unfold Registers.set_gpr_value
  cases hk : aliasKind name <;>
    · simp only []
      refine ⟨rfl, rfl, rfl, fun i hi => ?_⟩
      unfold Registers.gprSet
      exact getD_set_ne _ _ _ _ _ (fun h => hi h.symm)

theorem claim_set_gpr_frame_witness :
    (Registers.new.set_gpr_value .EAX 7).rip = Registers.new.rip ∧
    (Registers.new.set_gpr_value .EAX 7).gpr.getD 3 0 = Registers.new.gpr.getD 3 0 :=
  ⟨(claim_set_gpr_frame Registers.new .EAX 7).2.2.1,
   (claim_set_gpr_frame Registers.new .EAX 7).2.2.2 3 (by decide)⟩

/-- C9 counterexample: with a 256-bit section type and the 128-bit XMM
view, `get_by_sections` returns `⌊128/256⌋ = 0` lanes, not
`⌈128/256⌉ = 1` lane. -/
theorem claim_get_by_sections_ceil_counterexample :
    Registers.get_by_sections 256 Registers.new .XMM 0 = some [] ∧
    (128 + 256 - 1) / 256 = 1 := by
  refine ⟨by decide, by norm_num⟩

/-- C9 (amended): for every slot, view width `W` and section-compatible
element bit width, `get_by_sections` returns exactly `⌊W / bitwidth(T)⌋`
lanes (equal to `⌈W / bitwidth(T)⌉` whenever the element width divides `W`,
i.e. whenever it is at most `W`), ordered least-significant lane first,
lane `k` holding the physical bits starting at bit `k·bitwidth(T)`. -/
theorem claim_get_by_sections_lanes :
    ∀ (regs : Registers) (tb : Nat) (rt : VecRegName) (idx : Nat),
      tb ∈ [8, 16, 32, 64, 128, 256, 512] →
      idx < 16 → regs.WF →
      ∃ l, Registers.get_by_sections tb regs rt idx = some l ∧
        l.length = vecWidth rt / tb ∧
        ∀ k j, k < l.length → j < tb →
          (l.getD k 0).testBit j = (regs.simdAt idx).bits.getD (k * tb + j) false := by
  intro regs tb rt idx htb hidx hwf
  have hblen := WF_simdAt regs hwf idx hidx
  have htbpos : 0 < tb := by
    simp only [List.mem_cons, List.not_mem_nil, or_false] at htb
    rcases htb with h | h | h | h | h | h | h <;> omega
  have hslen : ((regs.simdAt idx).get_sections tb).length = (512 + tb - 1) / tb := by
    rw [get_sections_length, hblen]
  have hcore : ∀ W : Nat, W ≤ 512 →
      (((regs.simdAt idx).get_sections tb).take (W / tb)).length = W / tb ∧
      ∀ k j, k < W / tb → j < tb →
        ((((regs.simdAt idx).get_sections tb).take (W / tb)).getD k 0).testBit j =
          (regs.simdAt idx).bits.getD (k * tb + j) false := by
    intro W hW
    have hle : W / tb ≤ (512 + tb - 1) / tb :=
      Nat.div_le_div_right (by omega)
    constructor
    · rw [List.length_take, hslen]
      omega
    · intro k j hk hj
      rw [getD_take _ _ _ _ hk, get_sections_getD tb _ k (by rw [hblen]; omega),
        orBits_testBit]
      rw [decide_eq_true hj]
      simp
  cases rt
  · obtain ⟨hL, hK⟩ := hcore 128 (by norm_num)
    exact ⟨_, rfl, hL, fun k j hk hj => hK k j (by rw [hL] at hk; exact hk) hj⟩
  · obtain ⟨hL, hK⟩ := hcore 256 (by norm_num)
    exact ⟨_, rfl, hL, fun k j hk hj => hK k j (by rw [hL] at hk; exact hk) hj⟩
  · obtain ⟨hL, hK⟩ := hcore 512 (by norm_num)
    exact ⟨_, rfl, hL, fun k j hk hj => hK k j (by rw [hL] at hk; exact hk) hj⟩

theorem claim_get_by_sections_lanes_witness :
    ∃ l, Registers.get_by_sections 64 Registers.new .ZMM 1 = some l ∧
      l.length = vecWidth .ZMM / 64 ∧
      ∀ k j, k < l.length → j < 64 →
        (l.getD k 0).testBit j = (Registers.new.simdAt 1).bits.getD (k * 64 + j) false :=
  claim_get_by_sections_lanes Registers.new 64 .ZMM 1 (by decide) (by decide)
    registers_new_WF

/-- C1: for every well-formed memory state, every address at or above the
base address and every supported scalar width (1/2/4/8/16/32/64 bytes,
i.e. u8–u512), writing a value of that width and reading it back at the
same address returns the value unchanged; and reading any address none of
whose bytes were ever written (in a memory built from any sequence of byte
writes at or above the base) returns zero. -/
theorem claim_mem_roundtrip_zero :
    (∀ (m : Memory) (sz addr v : Nat),
      MemWF m.segments →
      sz ∈ [1, 2, 4, 8, 16, 32, 64] →
      m.base_address ≤ addr →
      v < 2 ^ (8 * sz) →
      (m.write sz addr v).read sz addr = v) ∧
    (∀ (base : Nat) (ws : List (Nat × Nat)) (sz addr : Nat),
      sz ∈ [1, 2, 4, 8, 16, 32, 64] →
      base ≤ addr →
      (∀ p ∈ ws, base ≤ p.1) →
      (∀ p ∈ ws, ∀ i < sz, p.1 ≠ addr + i) →
      (writeList (Memory.new base) ws).read sz addr = 0) := by
  constructor
  · intro m sz addr v hwf _ haddr hv
    unfold Memory.write Memory.read
    have hread : ∀ i, i < sz →
        (writeBytes m addr (toBytesLE sz v)).read_byte (addr + i) =
          (toBytesLE sz v).getD i 0 := by
      intro i hi
      rw [writeBytes_read m addr _ (addr + i) hwf haddr (by omega),
        if_pos (by rw [toBytesLE_length]; omega)]
      congr 1
      omega
    have hmap : (List.range sz).map
        (fun i => (writeBytes m addr (toBytesLE sz v)).read_byte (addr + i)) =
        toBytesLE sz v := by
      rw [List.map_congr_left (fun i hi => hread i (List.mem_range.mp hi)),
        show List.range sz = List.range (toBytesLE sz v).length from by
          rw [toBytesLE_length]]
      exact map_range_getD (toBytesLE sz v)
    rw [hmap, fromBytesLE_toBytesLE]
    apply Nat.mod_eq_of_lt
    calc v < 2 ^ (8 * sz) := hv
    _ = 256 ^ sz := by rw [pow_mul]; norm_num
  · intro base ws sz addr _ haddr hws hnot
    unfold Memory.read
    apply fromBytesLE_zero
    intro b hb
    rw [List.mem_map] at hb
    obtain ⟨i, hi, hbe⟩ := hb
    rw [List.mem_range] at hi
    rw [← hbe, writeList_read_untouched (Memory.new base) ws (addr + i) (memWF_new base)
      (show (Memory.new base).base_address ≤ addr + i by
        show base ≤ addr + i
        omega)
      hws (fun p hp => hnot p hp i hi)]
    rfl

theorem claim_mem_roundtrip_zero_witness :
    ((Memory.new 0).write 4 0 305419896).read 4 0 = 305419896 ∧
    (writeList (Memory.new 0) [(9, 1)]).read 2 0 = 0 :=
  ⟨claim_mem_roundtrip_zero.1 (Memory.new 0) 4 0 305419896 (memWF_new 0) (by decide)
     (by decide) (by norm_num),
   claim_mem_roundtrip_zero.2 0 [(9, 1)] 2 0 (by decide) (by decide) (by decide)
     (by decide)⟩

/-- C4: after every `write_byte` (and hence after any sequence of byte
writes, which is what the typed and vector writes decompose into), the
segment list is strictly separated: sorted ascending by start offset,
mutually non-overlapping, and no segment's end equals the next segment's
start (adjacent segments are always merged).  In particular, writing bytes
in two blocks separated by an allocation-granularity gap and then filling
the gap leaves exactly one segment. -/
theorem claim_segments_invariant :
    (∀ (base : Nat) (ws : List (Nat × Nat)),
      SegsOrdered (writeList (Memory.new base) ws).segments) ∧
    ((((Memory.new 0).write_byte 100 7).write_byte 1200 8).write_byte 600 9).segments.length
      = 1 := by
  constructor
  · intro base ws
    exact (writeList_WF (Memory.new base) ws (memWF_new base)).2
  · rfl

/-- C8: for every well-formed selector `[hi:lo]` (each token a decimal
integer or the literal `MAX` = 511, with `lo ≤ hi ≤ 511`) and a destination
type at least as wide as the range: parsing yields `(hi, lo)`;
`get_by_selector` returns the register bits `lo..=hi` packed from bit 0;
`set_by_selector` succeeds and overwrites every bit `lo..=hi` — range bits
past the destination type's width are explicitly zeroed, all other bits are
untouched; a set followed by a get on `"[31:0]"` returns the value masked
to 32 bits; and `"[MAX:64]"` parses to the inclusive bit range 64–511. -/
theorem claim_selector_semantics :
    (∀ (s1 s2 : List Char) (hi lo : Nat), tokenDenotes s1 hi → tokenDenotes s2 lo →
      extract_values ⟨'[' :: (s1 ++ ':' :: (s2 ++ [']']))⟩ = some (hi, lo)) ∧
    (∀ (regs : Registers) (tb idx : Nat) (rt : VecRegName) (hi lo : Nat) (sel : String),
      extract_values sel = some (hi, lo) → lo ≤ hi → hi - lo + 1 ≤ tb →
      ∃ g, Registers.get_by_selector tb regs rt idx sel = some g ∧
        ∀ k, g.testBit k =
          (decide (k ≤ hi - lo) && (regs.simdAt idx).bits.getD (lo + k) false)) ∧
    (∀ (regs : Registers) (tb idx : Nat) (rt : VecRegName) (hi lo : Nat)
        (sel : String) (v : Nat),
      regs.WF → idx < 16 →
      extract_values sel = some (hi, lo) → lo ≤ hi → hi < 512 →
      (Registers.set_by_selector tb regs rt idx sel v).2 = true ∧
      ∀ x, x < 512 →
        ((Registers.set_by_selector tb regs rt idx sel v).1.simdAt idx).bits.getD x false =
          if lo ≤ x ∧ x ≤ hi then (if x - lo < tb then v.testBit (x - lo) else false)
          else (regs.simdAt idx).bits.getD x false) ∧
    (∀ (regs : Registers) (rt rt' : VecRegName) (idx v : Nat), regs.WF → idx < 16 →
      Registers.get_by_selector 32
        (Registers.set_by_selector 32 regs rt idx ("[31:0]") v).1 rt' idx ("[31:0]") =
        some (v % 2 ^ 32)) ∧
    extract_values ("[MAX:64]") = some (511, 64) :=
  ⟨extract_values_denotes,
   fun regs tb idx rt hi lo sel hext hlohi htb =>
     get_by_selector_spec regs tb idx rt hi lo sel hext hlohi htb,
   fun regs tb idx rt hi lo sel v hwf hidx hext hlohi hhi =>
     set_by_selector_spec regs tb idx rt hi lo sel v hwf hidx hext hlohi hhi,
   fun regs rt rt' idx v hwf hidx => selector_roundtrip_31_0 regs rt rt' idx v hwf hidx,
   by decide⟩

theorem claim_selector_semantics_witness :
    Registers.get_by_selector 32
      (Registers.set_by_selector 32 Registers.new .XMM 0 ("[31:0]") 3735928559).1
      .XMM 0 ("[31:0]") = some (3735928559 % 2 ^ 32) :=
  claim_selector_semantics.2.2.2.1 Registers.new .XMM .XMM 0 3735928559
    registers_new_WF (by decide)

end Cpulib
